import Mathlib

/-!
# Verification of the AMPAL PDB parser / serializer core

A shallow embedding of `ampal`'s PDB parsing and serialization pipeline
(`ampal/pdb_parser.py`, `ampal/base_ampal.py`, `ampal/assembly.py`,
`ampal/protein.py`, `ampal/ligands.py`), together with theorems settling the
frozen specification claims.

Modelling conventions:
* Python `OrderedDict`s become association lists (`List (κ × β)`) with
  insertion semantics that replace an existing key in place and append a
  fresh key at the end, exactly like `OrderedDict.__setitem__`.
* Python `set`s become duplicate-free lists in insertion order; the embedded
  code only tests membership on them, or reads an element of a singleton set,
  so the iteration-order indeterminacy of real Python sets is never observed
  in any theorem below (hypotheses force singletons where the source calls
  `list(some_set)[0]` on a possibly larger set).
* PDB coordinate / occupancy / temperature-factor columns are carried through
  the pipeline as their raw column text.  The Python code converts them with
  `float(...)` and the serializer re-renders them with `"{:8.3f}"`-style
  formats; no claim under consideration depends on the numeric value, only on
  the record being accepted, copied or counted.  Acceptance is modelled by a
  plain decimal grammar (optional sign, digits, optional fractional part),
  a sub-grammar of what Python's `float` accepts.
* Machine integers: PDB serial and residue-sequence columns are parsed with
  Python `int`, which is unbounded; they are modelled as `Int`.
-/

namespace Ampal

/-! ## Ordered dictionaries as association lists -/

/-- `OrderedDict.__setitem__`: replace the value of an existing key in place,
otherwise append the new binding at the end. -/
def odInsert {κ β : Type} [DecidableEq κ] (k : κ) (v : β) :
    List (κ × β) → List (κ × β)
  | [] => [(k, v)]
  | (k₁, v₁) :: t => if k₁ = k then (k, v) :: t else (k₁, v₁) :: odInsert k v t

/-- Dictionary lookup (first binding wins; keys are kept duplicate-free). -/
def odLookup {κ β : Type} [DecidableEq κ] (k : κ) : List (κ × β) → Option β
  | [] => none
  | (k₁, v₁) :: t => if k₁ = k then some v₁ else odLookup k t

/-- The key list of an association dictionary, in insertion order. -/
def odKeys {κ β : Type} (d : List (κ × β)) : List κ :=
  d.map Prod.fst

/-- Python `set.add` on a set modelled as a duplicate-free list. -/
def setAdd {α : Type} [DecidableEq α] (a : α) (s : List α) : List α :=
  if a ∈ s then s else s ++ [a]

/-! ## Raw record data (`proc_line_coordinate` output) -/

/-- The tuple returned by `PdbParser.proc_line_coordinate` for one
`ATOM`/`HETATM` line.  Field numbering follows the source's comments. -/
structure AtomData where
  atType : String     -- 0: record keyword, "ATOM" or "HETATM"
  atSer : Int         -- 1: atom serial number
  atName : String     -- 2: atom name, e.g. "CA"
  altLoc : String     -- 3: alternate-location indicator (stripped)
  resName : String    -- 4: residue name
  chainId : String    -- 5: chain identifier
  resSeq : Int        -- 6: residue sequence number
  iCode : String      -- 7: insertion code (stripped)
  x : String          -- 8: x column text (numeric value unused here)
  y : String          -- 9
  z : String          -- 10
  occupancy : String  -- 11
  tempFactor : String -- 12
  element : String    -- 13
  charge : String     -- 14
deriving Repr, DecidableEq

/-! ## Atoms and monomer states (`base_ampal.Atom`, `gen_states`) -/

/-- `base_ampal.Atom`: coordinates and metadata (parent back-reference and the
mutable tag map are omitted; coordinates are the raw column texts). -/
structure Atom where
  vector : String × String × String
  element : String
  id : Int
  resLabel : String
  occupancy : String
  bfactor : String
  charge : String
  state : String
deriving Repr, DecidableEq

/-- The `Atom(...)` construction inside the first loop of
`PdbParser.gen_states`. -/
def mkStateAtom (a : AtomData) (state : String) : Atom :=
  { vector := (a.x, a.y, a.z)
    element := a.element
    id := a.atSer
    resLabel := a.atName
    occupancy := a.occupancy
    bfactor := a.tempFactor
    charge := a.charge
    state := state }

/-- The state label an atom record is bucketed under:
`"A" if not atom[3] else atom[3]`. -/
def normState (a : AtomData) : String :=
  if a.altLoc = "" then "A" else a.altLoc

/-- One monomer state: an ordered dictionary from residue-local atom label
to `Atom`. -/
abbrev StateDict := List (String × Atom)

/-- One iteration of the accumulation loop of `gen_states`: bucket a record
into its state dictionary under its atom name, overwriting any earlier record
with the same name in the same state. -/
def accumStep (states : List (String × StateDict)) (a : AtomData) :
    List (String × StateDict) :=
  let st := normState a
  let cur := (odLookup st states).getD []
  odInsert st (odInsert a.atName (mkStateAtom a st) cur) states

/-- The accumulation loop of `gen_states`: bucket every record of the residue
into its state, the later record overwriting an earlier one with the same
atom name.  The source iterates `for atoms in monomer_data: for atom in
atoms`, i.e. sequentially over the concatenation of the per-serial lists. -/
def accumStates (records : List AtomData) : List (String × StateDict) :=
  records.foldl accumStep []

/-- The copied atom built during backfill: same coordinates, element and
metadata, restamped with the first character of the target state label. -/
def copyAtom (v : Atom) (tState : String) : Atom :=
  { vector := v.vector
    element := v.element
    id := v.id
    resLabel := v.resLabel
    occupancy := v.occupancy
    bfactor := v.bfactor
    charge := v.charge
    state := String.mk (tState.toList.take 1) }

/-- The backfill trigger of `gen_states`:
`(len(states) > 1) and (len(set([x[1] for x in states_len])) > 1)`. -/
def backfillCond (states : List (String × StateDict)) : Bool :=
  states.length > 1 ∧ ((states.map (fun kv => kv.2.length)).dedup.length > 1)

/-- Python list-of-character comparison (`<` by code point, then length). -/
def pyListLt : List Char → List Char → Bool
  | _, [] => false
  | [], _ :: _ => true
  | a :: as, b :: bs =>
    if a.val < b.val then true
    else if b.val < a.val then false
    else pyListLt as bs

/-- Python string `<`: lexicographic comparison by code point. -/
def pyStrLt (a b : String) : Bool :=
  pyListLt a.toList b.toList

/-- Python string `<=`. -/
def pyStrLe (a b : String) : Bool :=
  !pyStrLt b a

/-- `sorted(keys)[0]`: the minimum of a key list under Python string
comparison (`none` on an empty list, where Python would raise). -/
def minString : List String → Option String
  | [] => none
  | k :: t => some (t.foldl (fun m x => if pyStrLt x m then x else m) k)

/-- The reference state key: `sorted(states_len, key=lambda x: x[0])[0][0]`,
i.e. the lexicographically smallest state label (`""` for an empty dictionary,
a case the caller never reaches). -/
def refStateKey (states : List (String × StateDict)) : String :=
  match minString (odKeys states) with
  | some k => k
  | none => ""

/-- One iteration of the backfill loop body: rebuild state `tState` from the
reference state's bindings, keeping atoms `tState` already has and copying
the reference atom otherwise. -/
def backfillState (refDict : StateDict) (tState : String) (tStateD : StateDict) :
    StateDict :=
  refDict.map
    (fun kv =>
      (kv.1,
        match odLookup kv.1 tStateD with
        | some a => a
        | none => copyAtom kv.2 tState))

/-- The backfill loop of `gen_states`.  The source iterates over
`states.items()` and reassigns `states[t_state]`; reassigning the reference
state reproduces its own bindings, so reading the (live) reference each
iteration is reproduced faithfully by a sequential fold. -/
def backfill (states : List (String × StateDict)) : List (String × StateDict) :=
  if backfillCond states then
    (odKeys states).foldl
      (fun sts tState =>
        let tStateD := (odLookup tState sts).getD []
        let refDict := (odLookup (refStateKey states) sts).getD []
        odInsert tState (backfillState refDict tState tStateD) sts)
      states
  else states

/-- `PdbParser.gen_states`: bucket the residue's records into alternate-state
dictionaries, then backfill under-populated states. -/
def genStates (monomerData : List (List AtomData)) : List (String × StateDict) :=
  backfill (accumStates monomerData.flatten)

/-! ## Line-level parsing (`proc_line_coordinate`) -/

/-- Python string slicing `line[a:b]` (character based, lenient on
out-of-range indices). -/
def pySlice (s : String) (a b : Nat) : String :=
  String.mk ((s.toList.drop a).take (b - a))

/-- Python `str.strip()`: remove leading and trailing whitespace. -/
def pyStrip (s : String) : String :=
  String.mk
    (((s.toList.dropWhile Char.isWhitespace).reverse.dropWhile
        Char.isWhitespace).reverse)

/-- The value of a digit list, most significant first. -/
def digitsVal (ds : List Char) : Nat :=
  ds.foldl (fun acc c => acc * 10 + (c.toNat - 48)) 0

/-- Python `int(...)` on an already-stripped column: optional sign followed by
at least one digit (underscore grouping and redundant whitespace never occur
in the fixed PDB columns). -/
def parsePyInt (s : String) : Option Int :=
  let withSign : Int × List Char :=
    match s.toList with
    | '-' :: t => (-1, t)
    | '+' :: t => (1, t)
    | t => (1, t)
  if withSign.2 ≠ [] ∧ withSign.2.all Char.isDigit then
    some (withSign.1 * (digitsVal withSign.2 : Int))
  else none

/-- Acceptance of a real-number column by Python `float(...)`, restricted to
the plain decimal grammar `[+-]? digits [. digits]?` actually used in PDB
coordinate columns (the full Python grammar is wider; narrowing it only
narrows the set of inputs the embedded parser accepts). -/
def decimalOk (s : String) : Bool :=
  let body : List Char :=
    match s.toList with
    | '-' :: t => t
    | '+' :: t => t
    | t => t
  match body.splitOn '.' with
  | [ds] => ds ≠ [] ∧ ds.all Char.isDigit
  | [ds, fs] => ds ≠ [] ∧ ds.all Char.isDigit ∧ fs.all Char.isDigit
  | _ => false

/-- `PdbParser.proc_line_coordinate`: extract the fixed columns of an
`ATOM`/`HETATM` record.  `none` models the `ValueError` Python raises when an
`int`/`float` column does not parse.  (The side effect registering new atom
labels in `PDB_ATOM_COLUMNS` affects downstream column text only, never
acceptance, and is not modelled.) -/
def procLineCoordinate (line : String) : Option AtomData := do
  let atSer ← parsePyInt (pyStrip (pySlice line 6 11))
  let resSeq ← parsePyInt (pyStrip (pySlice line 22 26))
  let x := pyStrip (pySlice line 30 38)
  let y := pyStrip (pySlice line 38 46)
  let z := pyStrip (pySlice line 46 54)
  let occupancy := pyStrip (pySlice line 54 60)
  let tempFactor := pyStrip (pySlice line 60 66)
  if decimalOk x ∧ decimalOk y ∧ decimalOk z ∧
      decimalOk occupancy ∧ decimalOk tempFactor then
    some
      { atType := pyStrip (pySlice line 0 6)
        atSer := atSer
        atName := pyStrip (pySlice line 12 16)
        altLoc := pyStrip (pySlice line 16 17)
        resName := pyStrip (pySlice line 17 20)
        chainId := pyStrip (pySlice line 21 22)
        resSeq := resSeq
        iCode := pyStrip (pySlice line 26 27)
        x := x
        y := y
        z := z
        occupancy := occupancy
        tempFactor := tempFactor
        element := pyStrip (pySlice line 76 78)
        charge := pyStrip (pySlice line 78 80) }
  else none

/-! ## The parse tree (`proc_atom`, `parse_pdb_file`) -/

/-- A residue-level monomer label: `(at_type, res_seq, res_name, i_code)`. -/
structure MonomerLabel where
  atType : String
  resSeq : Int
  resName : String
  iCode : String
deriving Repr, DecidableEq

/-- Parse-tree entry for one residue: the set of residue-level labels and the
ordered dictionary from atom serial to the list of records found for that
serial (one per alternate location). -/
structure ResData where
  labels : List MonomerLabel
  atoms : List (Int × List AtomData)
deriving Repr, DecidableEq

/-- A chain-level type marker: `(chain_id, at_type, poly)` with
`poly ∈ {"P", "N", "H"}`. -/
structure ChainLabel where
  chainId : String
  atType : String
  poly : String
deriving Repr, DecidableEq

/-- Parse-tree entry for one chain: marker set plus residue dictionary keyed
by `(res_seq, i_code)`. -/
structure ChainData where
  labels : List ChainLabel
  residues : List ((Int × String) × ResData)
deriving Repr, DecidableEq

/-- One model of the parse tree: ordered dictionary from chain id to chain
data. -/
abbrev ModelData := List (String × ChainData)

/-- `pdb_parse_tree["data"]`: ordered dictionary from model index to model
data (the `info` bucket of verbatim non-atom records is not needed by any
claim and is omitted). -/
abbrev ParseData := List (Nat × ModelData)

/-- `Modelled from the spec:` the `standard_amino_acids` table lives in
`ampal/amino_acids.py`, which is absent from the sources provided; the spec
describes it as "the 20/X standard amino-acid vocabulary" and the shipped
tests require twenty one-letter keys mapped to three-letter values.  Only the
value set is consulted by the parser. -/
def standardAminoAcidValues : List String :=
  ["ALA", "ARG", "ASN", "ASP", "CYS", "GLN", "GLU", "GLY", "HIS", "ILE",
   "LEU", "LYS", "MET", "PHE", "PRO", "SER", "THR", "TRP", "TYR", "VAL"]

/-- The polymer marker computed in `proc_atom`: `"P"` for an `ATOM` record of
a standard amino acid, `"N"` for any other `ATOM` record, `"H"` for
`HETATM`. -/
def polyMarker (a : AtomData) : String :=
  if a.atType = "ATOM" then
    if a.resName ∈ standardAminoAcidValues then "P" else "N"
  else "H"

/-- Update one residue entry with a record (`proc_atom`, residue level). -/
def procAtomRes (a : AtomData) (res : ResData) : ResData :=
  { labels := setAdd
      { atType := a.atType, resSeq := a.resSeq, resName := a.resName
        iCode := a.iCode } res.labels
    atoms :=
      match odLookup a.atSer res.atoms with
      | none => res.atoms ++ [(a.atSer, [a])]
      | some l => odInsert a.atSer (l ++ [a]) res.atoms }

/-- Update one chain entry with a record (`proc_atom`, chain level). -/
def procAtomChain (a : AtomData) (chain : ChainData) : ChainData :=
  let resId := (a.resSeq, a.iCode)
  let res := (odLookup resId chain.residues).getD { labels := [], atoms := [] }
  { labels := setAdd
      { chainId := a.chainId, atType := a.atType, poly := polyMarker a }
      chain.labels
    residues := odInsert resId (procAtomRes a res) chain.residues }

/-- Insert one record into a model (`PdbParser.proc_atom`). -/
def procAtom (a : AtomData) (model : ModelData) : ModelData :=
  let chain := (odLookup a.chainId model).getD { labels := [], residues := [] }
  odInsert a.chainId (procAtomChain a chain) model

/-- The distinct failure kinds surfaced by parsing and lowering.  The last
two model Python `IndexError`/`KeyError`/`ValueError` raises on branches the
scanner can never produce; theorems never rely on them being reachable. -/
inductive PdbError where
  | malformedAtomLine        -- ValueError from int()/float() in proc_line_coordinate
  | emptyParseTree           -- ValueError "Empty parse tree, check input PDB format."
  | multipleAtomTypes        -- ValueError 'multiple "ATOM" types in a single chain'
  | malformedTree            -- AttributeError "Malformed parse tree, check inout PDB."
  | multipleMonomerLabels    -- ValueError "single monomer id with multiple labels"
  | unknownMonomerType       -- ValueError "Unknown Monomer type."
  | unknownRecordType        -- ValueError "unknown record type for data"
  | badMolCode               -- ValueError from Residue.__init__ on a bad code length
  | missingKey               -- IndexError/KeyError on an empty collection
deriving Repr, DecidableEq

/-- `line[:6].strip()`, the dispatch key of the scan loop. -/
def recordName (line : String) : String :=
  pyStrip (pySlice line 0 6)

/-- The scan loop of `parse_pdb_file`: dispatch on the record keyword,
accumulating models.  Records other than `ATOM`/`HETATM`/`ENDMDL`/`END` go to
the verbatim `info` bucket, which no claim consults and which is therefore
dropped here.  `END` raises `EOFError`, caught by `parse_pdb_file`, i.e. the
scan stops and keeps everything accumulated so far. -/
def scanLines (ignoreEnd : Bool) : List String → Nat → ParseData →
    Except PdbError ParseData
  | [], _, data => .ok data
  | line :: rest, state, data =>
    let rn := recordName line
    if rn = "ATOM" ∨ rn = "HETATM" then
      match procLineCoordinate line with
      | none => .error .malformedAtomLine
      | some a =>
        match odLookup state data with
        | none => .error .missingKey
        | some model =>
          scanLines ignoreEnd rest state (odInsert state (procAtom a model) data)
    else if rn = "ENDMDL" then
      scanLines ignoreEnd rest (state + 1) (odInsert (state + 1) [] data)
    else if rn = "END" then
      if ignoreEnd then scanLines ignoreEnd rest state data else .ok data
    else
      scanLines ignoreEnd rest state data

/-- `parse_pdb_file`: the parse starts with the single empty model `0`. -/
def parsePdbLines (ignoreEnd : Bool) (lines : List String) :
    Except PdbError ParseData :=
  scanLines ignoreEnd lines 0 [(0, [])]

/-! ## Lowering (`proc_monomer`, `proc_chain`, `proc_state`, `make_ampal`) -/

/-- The concrete `Monomer` subclass chosen during lowering. -/
inductive MonClass where
  | residue
  | nucleotide
  | ligand
deriving Repr, DecidableEq

/-- A lowered monomer.  `id` is `str(res_seq)` (Python `Monomer.__init__`
stringifies the identifier); the parent back-reference and tag map are
omitted. -/
structure Monomer where
  cls : MonClass
  molCode : String
  id : String
  insertionCode : String
  isHetero : Bool
  states : List (String × StateDict)
  activeState : String
deriving Repr, DecidableEq

/-- `Modelled from the spec:` `get_aa_code` lives in the absent
`ampal/amino_acids.py`; per the shipped tests it maps a one-letter code to the
three-letter code and gives `None` on anything else.  Only the twenty standard
letters are needed; the branch consuming it is unreachable from parsed input
(every residue name reaching `Residue.__init__` has three characters). -/
def getAaCode (letter : String) : Option String :=
  odLookup letter
    [("A", "ALA"), ("R", "ARG"), ("N", "ASN"), ("D", "ASP"), ("C", "CYS"),
     ("Q", "GLN"), ("E", "GLU"), ("G", "GLY"), ("H", "HIS"), ("I", "ILE"),
     ("L", "LEU"), ("K", "LYS"), ("M", "MET"), ("F", "PHE"), ("P", "PRO"),
     ("S", "SER"), ("T", "THR"), ("W", "TRP"), ("Y", "TYR"), ("V", "VAL")]

/-- The molecule-code handling of the chosen constructor: `Residue.__init__`
(protein.py) accepts a three-letter code as is, converts a one-letter code,
and raises `ValueError` otherwise; `Nucleotide` and `Ligand` store the code
unchanged. -/
def monomerMolCode (cls : MonClass) (code : String) : Except PdbError String :=
  match cls with
  | .residue =>
    if code.length = 3 then .ok code
    else if code.length = 1 then .ok ((getAaCode code).getD "")
    else .error .badMolCode
  | _ => .ok code

/-- `PdbParser.proc_monomer`: classify one residue's records and build the
`Monomer` with its alternate states. -/
def procMonomer (monomerInfo : ResData) (hetCls : Option MonClass) :
    Except PdbError Monomer :=
  if monomerInfo.labels.length > 1 then .error .multipleMonomerLabels
  else
    match monomerInfo.labels with
    | [] => .error .missingKey
    | lbl :: _ => do
      let clsHet : MonClass × Bool ←
        match hetCls with
        | some c => .ok (c, true)
        | none =>
          if lbl.atType = "ATOM" then
            .ok
              ((if lbl.resName ∈ standardAminoAcidValues then MonClass.residue
                else MonClass.nucleotide), false)
          else .error .unknownMonomerType
      let molCode ← monomerMolCode clsHet.1 lbl.resName
      let states := genStates (monomerInfo.atoms.map Prod.snd)
      match minString (odKeys states) with
      | none => .error .missingKey
      | some act =>
        .ok
          { cls := clsHet.1
            molCode := molCode
            id := toString lbl.resSeq
            insertionCode := lbl.iCode
            isHetero := clsHet.2
            states := states
            activeState := act }

/-- The residue's atom-label set, chained over every alternate-location
record (`{x[2] for x in itertools.chain(*residue[1].values())}`). -/
def residueAtomLabels (residue : ResData) : List String :=
  ((residue.atoms.map Prod.snd).flatten).map AtomData.atName

/-- `PdbParser.check_for_non_canonical`: a `HETATM` residue whose atom labels
cover the backbone `{N, CA, C, O}` and whose residue name has exactly three
characters is treated as a non-canonical amino acid on the chain. -/
def checkForNonCanonical (residue : ResData) : Option (MonClass × Bool) :=
  match residue.labels with
  | [] => none
  | lbl :: _ =>
    if (["N", "CA", "C", "O"].all (· ∈ residueAtomLabels residue)) ∧
        lbl.resName.length = 3 then
      some (.residue, true)
    else none

/-- The concrete `Polymer` subclass chosen for a chain. -/
inductive PolyClass where
  | polypeptide
  | polynucleotide
  | ligandGroup
deriving Repr, DecidableEq

/-- A lowered chain: its own monomer sequence plus, for polymer chains, the
eagerly created associated ligand group (`chain.ligands`); a free-standing
ligand-group chain keeps everything in `monomers` and has no associated
group, exactly as in `proc_chain` where `ligands = chain` in that case. -/
structure Chain where
  cls : PolyClass
  id : String
  monomers : List Monomer
  ligands : Option (List Monomer)
deriving Repr, DecidableEq

/-- The per-residue routing step of `proc_chain`: the pair accumulates
`chain._monomers` and the associated ligand group's monomers. -/
def procChainStep (polymer : Bool) (acc : List Monomer × List Monomer)
    (entry : (Int × String) × ResData) :
    Except PdbError (List Monomer × List Monomer) :=
  match entry.2.labels with
  | [] => .error .missingKey
  | resInfo :: _ =>
    if resInfo.atType = "ATOM" then do
      let m ← procMonomer entry.2 none
      .ok (acc.1 ++ [m], acc.2)
    else if resInfo.atType = "HETATM" then
      match checkForNonCanonical entry.2 with
      | some (cls, _onChain) => do
        let m ← procMonomer entry.2 (some cls)
        .ok (acc.1 ++ [m], acc.2)
      | none => do
        let m ← procMonomer entry.2 (some .ligand)
        if polymer then .ok (acc.1, acc.2 ++ [m]) else .ok (acc.1 ++ [m], acc.2)
    else .error .unknownRecordType

/-- `PdbParser.proc_chain`: classify the chain from its marker set, then
route every residue onto the chain or its ligand group. -/
def procChain (chainInfo : ChainData) : Except PdbError Chain :=
  match chainInfo.labels with
  | [] => .error .missingKey
  | chainLabel :: _ =>
    let monomerTypes := (chainInfo.labels.map ChainLabel.poly).filter (· ≠ "")
    if "P" ∈ monomerTypes ∧ "N" ∈ monomerTypes then .error .multipleAtomTypes
    else do
      let clsPoly : PolyClass × Bool ←
        if "P" ∈ monomerTypes then .ok (PolyClass.polypeptide, true)
        else if "N" ∈ monomerTypes then .ok (PolyClass.polynucleotide, true)
        else if "H" ∈ monomerTypes then .ok (PolyClass.ligandGroup, false)
        else .error .malformedTree
      let monsLigs ← chainInfo.residues.foldlM (procChainStep clsPoly.2) ([], [])
      .ok
        { cls := clsPoly.1
          id := chainLabel.chainId
          monomers := monsLigs.1
          ligands := if clsPoly.2 then some monsLigs.2 else none }

/-- Insert into a key-sorted association list (for `sorted(d.items())`;
dictionary keys are unique, so stability and value comparison never
matter). -/
def insertSortedBy {κ β : Type} (le : κ → κ → Bool) (kv : κ × β) :
    List (κ × β) → List (κ × β)
  | [] => [kv]
  | h :: t => if le kv.1 h.1 then kv :: h :: t else h :: insertSortedBy le kv t

/-- `sorted(d.items())` on an association dictionary with unique keys. -/
def sortByKey {κ β : Type} (le : κ → κ → Bool) :
    List (κ × β) → List (κ × β)
  | [] => []
  | h :: t => insertSortedBy le h (sortByKey le t)

/-- Python `<=` on the integer model indices. -/
def natLeB (a b : Nat) : Bool :=
  a ≤ b

/-- A lowered model: `Assembly` with its ordered molecule list. -/
structure Assembly where
  id : String
  molecules : List Chain
deriving Repr, DecidableEq

/-- The per-chain step of `proc_state`'s append loop. -/
def procStateStep (acc : List Chain) (kv : String × ChainData) :
    Except PdbError (List Chain) := do
  let c ← procChain kv.2
  .ok (acc ++ [c])

/-- `PdbParser.proc_state`: lower every chain of one model, in sorted
chain-id order, appending to the assembly's molecule list. -/
def procState (model : ModelData) (stateId : String) :
    Except PdbError Assembly := do
  let chains ← (sortByKey pyStrLe model).foldlM procStateStep []
  .ok { id := stateId, molecules := chains }

/-- The result of `make_ampal`: a bare `Assembly` or an `AmpalContainer`. -/
inductive AmpalResult where
  | assembly (a : Assembly)
  | container (id : String) (assemblies : List Assembly)
deriving Repr, DecidableEq

/-- The per-model step of `make_ampal`'s container branch: skip empty models,
lower the rest. -/
def makeAmpalStep (pdbId : String) (acc : List Assembly) (kv : Nat × ModelData) :
    Except PdbError (List Assembly) :=
  if kv.2 ≠ [] then do
    let a ← procState kv.2 (pdbId ++ "_state_" ++ toString (kv.1 + 1))
    pure (acc ++ [a])
  else pure acc

/-- `PdbParser.make_ampal`: more than one model in the parse tree gives an
`AmpalContainer` holding one `Assembly` per non-empty model; exactly one
model gives that model as a bare `Assembly` (model index `0`); an empty tree
raises the "empty parse tree" `ValueError`. -/
def makeAmpal (data : ParseData) (pdbId : String) :
    Except PdbError AmpalResult :=
  if data.length > 1 then do
    let assemblies ← (sortByKey natLeB data).foldlM (makeAmpalStep pdbId) []
    .ok (.container pdbId assemblies)
  else if data.length = 1 then
    match odLookup 0 data with
    | some model => do
      let a ← procState model pdbId
      .ok (.assembly a)
    | none => .error .missingKey
  else .error .emptyParseTree

/-- `load_pdb` (with the input already split into lines): parse then lower. -/
def loadPdb (lines : List String) (pdbId : String) (ignoreEnd : Bool) :
    Except PdbError AmpalResult := do
  makeAmpal (← parsePdbLines ignoreEnd lines) pdbId

/-! ## Serialization (`base_ampal.cap`, `write_pdb`, `make_pdb`) -/

/-- `base_ampal.cap`: keep a string short of the column width unchanged and
right-truncate a longer one to its *last* `l` characters.  (Python's
`s[-l:]` with `l = 0` is the whole string; no caller passes `0`.) -/
def cap (s : String) (l : Nat) : String :=
  if s.length ≤ l then s
  else if l = 0 then s
  else String.mk (s.toList.drop (s.length - l))

/-- Python `"{:>n}".format(s)`: right-justify with spaces, never truncate. -/
def rjust (n : Nat) (s : String) : String :=
  String.mk (List.replicate (n - s.length) ' ') ++ s

/-- Python `"{:<n}".format(s)`: left-justify with spaces, never truncate. -/
def ljust (n : Nat) (s : String) : String :=
  s ++ String.mk (List.replicate (n - s.length) ' ')

/-- One rendered `ATOM`/`HETATM` line, field by field.  The three coordinate
columns and occupancy/temperature factor are rendered by Python float
formatting from the parsed floats; they are carried as the raw column texts
here (no claim depends on their rendering). -/
structure RenderedLine where
  record : String            -- "ATOM  " or "HETATM"
  atomNumber : String
  atomName : String
  altLocInd : String
  residueType : String
  chainId : String
  resNum : String
  icode : String
  coords : String × String × String
  occupancy : String
  tempFactor : String
  element : String
  charge : String
deriving Repr, DecidableEq

/-- The per-atom rendering step of `write_pdb`.  `colTable` stands for the
process-wide `PDB_ATOM_COLUMNS` label→column-text registry (populated as a
parse side effect); it is passed explicitly. -/
def renderAtom (colTable : String → String) (isHetero : Bool)
    (molCode monomerId insertionCode polyId : String)
    (stateLabel : String) (atomT : String) (atom : Atom) : RenderedLine :=
  { record := if isHetero then "HETATM" else "ATOM  "
    atomNumber := rjust 5 (cap (toString atom.id) 5)
    atomName := ljust 4 (cap (colTable atomT) 4)
    altLocInd := ljust 1 (cap stateLabel 1)
    residueType := ljust 3 (cap molCode 3)
    chainId := ljust 1 (cap polyId 1)
    resNum := rjust 4 (cap monomerId 4)
    icode := ljust 1 (cap insertionCode 1)
    coords := atom.vector
    occupancy := atom.occupancy
    tempFactor := atom.bfactor
    element := rjust 2 (cap atom.element 2)
    charge := ljust 2 (cap atom.charge 2) }

/-- The atom list a monomer contributes to `write_pdb`: all states in
label-sorted order when alternate states are requested (and not stripped) and
more than one state exists, otherwise the active state
(`monomer.atoms`). -/
def monomerAtomList (m : Monomer) (altStates stripStates : Bool) :
    List (String × Atom) :=
  if m.states.length > 1 ∧ altStates ∧ ¬stripStates then
    (sortByKey pyStrLe m.states).flatMap Prod.snd
  else (odLookup m.activeState m.states).getD []

/-- The state label written to the alt-loc column for one atom. -/
def stateLabelFor (m : Monomer) (a : Atom) (stripStates : Bool) : String :=
  if stripStates then " "
  else if a.state = "A" ∧ m.states.length = 1 then " "
  else a.state

/-- `base_ampal.write_pdb` restricted to its rendered `ATOM`/`HETATM` lines.
The `monomer.tags["chain_id"]` override never applies to parsed hierarchies
(the parser sets no tags) and is omitted. -/
def writePdb (colTable : String → String) (monomers : List Monomer)
    (chainId : String) (altStates stripStates : Bool) : List RenderedLine :=
  let polyId := if chainId.length > 1 then " " else chainId
  monomers.flatMap
    (fun m =>
      (monomerAtomList m altStates stripStates).map
        (fun kv =>
          renderAtom colTable m.isHetero m.molCode m.id m.insertionCode polyId
            (stateLabelFor m kv.2 stripStates) kv.1 kv.2))

/-- `Polymer.relabel_monomers()` with default labels: number sequentially. -/
def relabelMonomers (ms : List Monomer) : List Monomer :=
  ms.enum.map (fun im => { im.2 with id := toString (im.1 + 1) })

/-- `Polymer.make_pdb`: re-label when any monomer id is falsy, then write the
chain's own monomers followed by its associated ligands. -/
def polymerMakePdb (colTable : String → String) (c : Chain)
    (altStates incLigands : Bool) : List RenderedLine :=
  let own :=
    if c.monomers.any (fun m => m.id = "") then relabelMonomers c.monomers
    else c.monomers
  let ms :=
    match c.ligands with
    | some ligs => if ligs ≠ [] ∧ incLigands then own ++ ligs else own
    | none => own
  writePdb colTable ms c.id altStates false

/-- The `molecule_type` string of each chain class (`"nucleic_acid"` is
`Modelled from the spec:` `Polynucleotide` lives in the absent
`nucleic_acid.py`; the spec's classification table names the type
nucleic-acid). -/
def molTypeString : PolyClass → String
  | .polypeptide => "protein"
  | .polynucleotide => "nucleic_acid"
  | .ligandGroup => "ligands"

/-- One line of an assembly-level PDB rendering. -/
inductive PdbLine where
  | headerLine
  | atomLine (r : RenderedLine)
  | ter
  | endLine
deriving Repr, DecidableEq

/-- `Assembly.make_pdb`: optional header, every non-restricted molecule's
block followed by `TER`, optional trailing `END`.  (`pseudo_group` chains
never arise from parsing, so the default restriction filters nothing.) -/
def assemblyMakePdb (colTable : String → String) (a : Assembly)
    (ligands altStates pseudoGroup header footer : Bool) : List PdbLine :=
  let restricted :=
    (if ligands then [] else ["ligands"]) ++
      (if pseudoGroup then [] else ["pseudo_group"])
  let inGroups := a.molecules.filter (fun c => molTypeString c.cls ∉ restricted)
  (if header then [PdbLine.headerLine] else []) ++
    inGroups.flatMap
      (fun c =>
        (polymerMakePdb colTable c altStates ligands).map PdbLine.atomLine ++
          [PdbLine.ter]) ++
    (if footer then [PdbLine.endLine] else [])

/-- Is a rendered line an `ATOM`/`HETATM` record? -/
def isAtomLine : PdbLine → Bool
  | .atomLine _ => true
  | _ => false

/-- The number of `ATOM`/`HETATM` lines in an assembly-level rendering. -/
def atomLineCount (ls : List PdbLine) : Nat :=
  (ls.filter isAtomLine).length

/-- The number of raw `ATOM`/`HETATM` lines in the input text. -/
def rawAtomLineCount (lines : List String) : Nat :=
  (lines.filter (fun l => recordName l = "ATOM" ∨ recordName l = "HETATM")).length

/-! ## Container mutators (`Polymer.append`/`extend`, `Assembly.append`) -/

/-- A dynamically typed Python value handed to a mutator: the `isinstance`
tests of `append`/`extend` see a `Monomer`, a `Polymer`, an `Assembly` or
something else entirely. -/
inductive PyValue where
  | monomer (m : Monomer)
  | polymer (p : Chain)
  | assembly (a : Assembly)
  | other
deriving Repr, DecidableEq

/-- `Polymer.append`: accepts every `Monomer` instance (whatever its concrete
class), raises `TypeError` otherwise. -/
def polymerAppend (p : Chain) (item : PyValue) : Except String Chain :=
  match item with
  | .monomer m => .ok { p with monomers := p.monomers ++ [m] }
  | _ => .error "TypeError"

/-- `Polymer.extend`: accepts every `Polymer` instance and appends its
monomers (iterating the polymer yields its `_monomers`), raises `TypeError`
otherwise. -/
def polymerExtend (p : Chain) (item : PyValue) : Except String Chain :=
  match item with
  | .polymer q => .ok { p with monomers := p.monomers ++ q.monomers }
  | _ => .error "TypeError"

/-- `Assembly.append`: accepts every `Polymer` instance, raises `TypeError`
otherwise. -/
def assemblyAppend (a : Assembly) (item : PyValue) : Except String Assembly :=
  match item with
  | .polymer p => .ok { a with molecules := a.molecules ++ [p] }
  | _ => .error "TypeError"

/-- Molecule-type uniformity of a polymer's own monomers: every monomer has
the one given concrete class. -/
def uniformClass (p : Chain) (c : MonClass) : Prop :=
  ∀ m ∈ p.monomers, m.cls = c

instance (p : Chain) (c : MonClass) : Decidable (uniformClass p c) := by
  unfold uniformClass; infer_instance

/-! ## Concrete input fixture -/

/-- Build one syntactically well-formed fixed-column `ATOM`/`HETATM` line
from field values (the inverse of `proc_line_coordinate`'s columns), used for
concrete witnesses and counterexamples. -/
def mkAtomLine (record : String) (ser : Int) (name altLoc resName chainId : String)
    (resSeq : Int) (iCode x y z occ temp element charge : String) : String :=
  ljust 6 record ++ rjust 5 (toString ser) ++ " " ++ ljust 4 name ++
    ljust 1 altLoc ++ ljust 3 resName ++ " " ++ ljust 1 chainId ++
    rjust 4 (toString resSeq) ++ ljust 1 iCode ++ "   " ++ rjust 8 x ++
    rjust 8 y ++ rjust 8 z ++ rjust 6 occ ++ rjust 6 temp ++
    String.mk (List.replicate 10 ' ') ++ rjust 2 element ++ ljust 2 charge

/-! ## Basic lemmas about the ordered-dictionary model -/

theorem odLookup_odInsert_self {κ β : Type} [DecidableEq κ] (k : κ) (v : β)
    (d : List (κ × β)) : odLookup k (odInsert k v d) = some v := by
  induction d with
  | nil => simp [odInsert, odLookup]
  | cons h t ih =>
    by_cases hk : h.1 = k
    · simp [odInsert, odLookup, hk]
    · simpa [odInsert, odLookup, hk] using ih

theorem odLookup_odInsert_ne {κ β : Type} [DecidableEq κ] {k k₁ : κ} (v : β)
    (d : List (κ × β)) (hne : k₁ ≠ k) :
    odLookup k₁ (odInsert k v d) = odLookup k₁ d := by
  induction d with
  | nil => simp [odInsert, odLookup, Ne.symm hne]
  | cons h t ih =>
    by_cases hk : h.1 = k
    · simp [odInsert, odLookup, hk, Ne.symm hne]
    · simp [odInsert, odLookup, hk, ih]

theorem odKeys_odInsert_mem {κ β : Type} [DecidableEq κ] {k : κ} (v : β)
    (d : List (κ × β)) : k ∈ odKeys d → odKeys (odInsert k v d) = odKeys d := by
  induction d with
  | nil => intro hmem; simp [odKeys] at hmem
  | cons h t ih =>
    intro hmem
    by_cases hk : h.1 = k
    · simp [odInsert, odKeys, hk]
    · have hmem' : k ∈ odKeys t := by
        have : k = h.1 ∨ k ∈ odKeys t := by simpa [odKeys] using hmem
        rcases this with h1 | h1
        · exact absurd h1.symm hk
        · exact h1
      have := ih hmem'
      simp [odInsert, odKeys, hk] at this ⊢
      exact this

theorem odKeys_odInsert_not_mem {κ β : Type} [DecidableEq κ] {k : κ} (v : β)
    (d : List (κ × β)) : k ∉ odKeys d → odKeys (odInsert k v d) = odKeys d ++ [k] := by
  induction d with
  | nil => intro _; simp [odInsert, odKeys]
  | cons h t ih =>
    intro hmem
    have hk : h.1 ≠ k := by
      intro hcontra
      exact hmem (by simp [odKeys, hcontra])
    have hmem' : k ∉ odKeys t := by
      intro hc
      have hcc : k ∈ odKeys (h :: t) := List.mem_cons_of_mem h.1 hc
      exact hmem hcc
    have := ih hmem'
    simp [odInsert, odKeys, hk] at this ⊢
    exact this

theorem odKeys_odInsert_nodup {κ β : Type} [DecidableEq κ] (k : κ) (v : β)
    {d : List (κ × β)} (hnd : (odKeys d).Nodup) :
    (odKeys (odInsert k v d)).Nodup := by
  by_cases hmem : k ∈ odKeys d
  · rw [odKeys_odInsert_mem v d hmem]; exact hnd
  · rw [odKeys_odInsert_not_mem v d hmem]
    refine List.Nodup.append hnd (List.nodup_singleton k) ?_
    intro a ha hak
    have : a = k := by simpa using hak
    exact hmem (this ▸ ha)

theorem odLookup_eq_none_iff {κ β : Type} [DecidableEq κ] (k : κ)
    (d : List (κ × β)) : odLookup k d = none ↔ k ∉ odKeys d := by
  induction d with
  | nil => simp [odLookup, odKeys]
  | cons h t ih =>
    by_cases hk : h.1 = k
    · simp [odLookup, odKeys, hk]
    · simp [odLookup, odKeys, hk, ih, Ne.symm hk]

theorem odLookup_isSome_iff {κ β : Type} [DecidableEq κ] (k : κ)
    (d : List (κ × β)) : (odLookup k d).isSome = true ↔ k ∈ odKeys d := by
  induction d with
  | nil => simp [odLookup, odKeys]
  | cons h t ih =>
    by_cases hk : h.1 = k
    · simp [odLookup, odKeys, hk]
    · simp [odLookup, odKeys, hk, ih, Ne.symm hk]

/-- On a dictionary with duplicate-free keys, a stored binding is what lookup
returns. -/
theorem odLookup_of_mem {κ β : Type} [DecidableEq κ] {k : κ} {v : β}
    {d : List (κ × β)} (hnd : (odKeys d).Nodup) (hmem : (k, v) ∈ d) :
    odLookup k d = some v := by
  induction d with
  | nil => simp at hmem
  | cons h t ih =>
    have hnd2 : (h.1 :: odKeys t).Nodup := hnd
    have hnd' := List.nodup_cons.mp hnd2
    rcases List.mem_cons.mp hmem with heq | hmem'
    · simp [odLookup, ← heq]
    · have hkt : k ∈ odKeys t := by
        simpa [odKeys] using List.mem_map_of_mem Prod.fst hmem'
      have hk : h.1 ≠ k := fun hc => hnd'.1 (hc ▸ hkt)
      simpa [odLookup, hk] using ih hnd'.2 hmem'

theorem insertSortedBy_perm {κ β : Type} (le : κ → κ → Bool) (kv : κ × β)
    (l : List (κ × β)) : (insertSortedBy le kv l).Perm (kv :: l) := by
  induction l with
  | nil => simp [insertSortedBy]
  | cons h t ih =>
    by_cases hle : le kv.1 h.1
    · simp [insertSortedBy, hle]
    · simp only [insertSortedBy, hle, if_false]
      exact (List.Perm.cons h ih).trans (List.Perm.swap kv h t)

theorem sortByKey_perm {κ β : Type} (le : κ → κ → Bool) (l : List (κ × β)) :
    (sortByKey le l).Perm l := by
  induction l with
  | nil => simp [sortByKey]
  | cons h t ih =>
    exact ((insertSortedBy_perm le h (sortByKey le t)).trans (List.Perm.cons h ih))

/-- Replacing a present key neither grows nor shrinks the dictionary. -/
theorem odInsert_length_mem {κ β : Type} [DecidableEq κ] {k : κ} (v : β)
    (d : List (κ × β)) : k ∈ odKeys d → (odInsert k v d).length = d.length := by
  induction d with
  | nil => intro hmem; simp [odKeys] at hmem
  | cons h t ih =>
    intro hmem
    by_cases hk : h.1 = k
    · simp [odInsert, hk]
    · have hmem' : k ∈ odKeys t := by
        have : k = h.1 ∨ k ∈ odKeys t := by simpa [odKeys] using hmem
        rcases this with h1 | h1
        · exact absurd h1.symm hk
        · exact h1
      simp [odInsert, hk, ih hmem']

/-- Adding a fresh key appends one binding. -/
theorem odInsert_length_not_mem {κ β : Type} [DecidableEq κ] {k : κ} (v : β)
    (d : List (κ × β)) : k ∉ odKeys d → (odInsert k v d).length = d.length + 1 := by
  induction d with
  | nil => intro _; simp [odInsert]
  | cons h t ih =>
    intro hmem
    have hk : h.1 ≠ k := fun hc => hmem (by simp [odKeys, hc])
    have hmem' : k ∉ odKeys t := fun hc => hmem (List.mem_cons_of_mem h.1 hc)
    simp [odInsert, hk, ih hmem']

/-- On duplicate-free keys, replacing a present key is the pointwise map that
substitutes that one binding. -/
theorem odInsert_eq_map_of_mem {κ β : Type} [DecidableEq κ] {k : κ} (v : β)
    {d : List (κ × β)} (hnd : (odKeys d).Nodup) (hmem : k ∈ odKeys d) :
    odInsert k v d = d.map (fun kv => if kv.1 = k then (k, v) else kv) := by
  induction d with
  | nil => simp [odKeys] at hmem
  | cons h t ih =>
    have hnd2 : (h.1 :: odKeys t).Nodup := hnd
    have hnd' := List.nodup_cons.mp hnd2
    by_cases hk : h.1 = k
    · have hrest : ∀ kv ∈ t, (if kv.1 = k then (k, v) else kv) = kv := by
        intro kv hkv
        have hne : kv.1 ≠ k := by
          intro hc
          exact hnd'.1 (hk ▸ hc ▸ (by simpa [odKeys] using List.mem_map_of_mem Prod.fst hkv))
        simp [hne]
      simp [odInsert, hk, List.map_congr_left hrest]
    · have hmem' : k ∈ odKeys t := by
        have : k = h.1 ∨ k ∈ odKeys t := by simpa [odKeys] using hmem
        rcases this with h1 | h1
        · exact absurd h1.symm hk
        · exact h1
      simp [odInsert, hk, ih hnd'.2 hmem']

/-! ## Column truncation (claim C8) -/

theorem cap_of_le {s : String} {l : Nat} (h : s.length ≤ l) : cap s l = s := by
  simp [cap, h]

theorem cap_toList_of_lt {s : String} {l : Nat} (hl : 0 < l) (hs : l < s.length) :
    (cap s l).toList = s.toList.drop (s.length - l) := by
  simp [cap, Nat.not_le.mpr hs, Nat.pos_iff_ne_zero.mp hl]

theorem length_cap_of_lt {s : String} {l : Nat} (hl : 0 < l) (hs : l < s.length) :
    (cap s l).length = l := by
  have hlen : s.toList.length = s.length := rfl
  have : (cap s l).length = (cap s l).toList.length := rfl
  rw [this, cap_toList_of_lt hl hs, List.length_drop, hlen]
  omega

theorem rjust_of_length_eq {s : String} {n : Nat} (h : s.length = n) :
    rjust n s = s := by
  simp [rjust, h]

/-! ## Folding in the `Except` monad -/

theorem foldlM_cons {α σ : Type} (f : σ → α → Except PdbError σ) (init : σ)
    (a : α) (t : List α) :
    (a :: t).foldlM f init =
      match f init a with
      | .error e => .error e
      | .ok s => t.foldlM f s := by
  cases h : f init a with
  | error e => simp [List.foldlM, h, Bind.bind, Except.bind]
  | ok s => simp [List.foldlM, h, Bind.bind, Except.bind]

/-- A step that fails on some list element independently of the accumulator
makes the whole fold fail. -/
theorem foldlM_error_of_mem {α σ : Type} (f : σ → α → Except PdbError σ)
    (l : List α) (x : α) (hx : x ∈ l)
    (hf : ∀ s : σ, ∃ e, f s x = .error e) :
    ∀ init : σ, ∃ e, l.foldlM f init = .error e := by
  induction l with
  | nil => cases hx
  | cons h t ih =>
    intro init
    rcases List.mem_cons.mp hx with heq | hmem
    · rcases hf init with ⟨e, he⟩
      refine ⟨e, ?_⟩
      rw [foldlM_cons, ← heq, he]
    · cases hstep : f init h with
      | error e => exact ⟨e, by rw [foldlM_cons, hstep]⟩
      | ok s =>
        rcases ih hmem s with ⟨e, he⟩
        exact ⟨e, by rw [foldlM_cons, hstep]; exact he⟩

/-! ## Scan-loop lemmas -/

/-- Lines whose record keyword is none of `ATOM`/`HETATM`/`ENDMDL` leave the
parse tree untouched (`END` at worst stops the scan early). -/
theorem scanLines_no_atoms (ie : Bool) (lines : List String) :
    ∀ st data,
      (∀ l ∈ lines, recordName l ≠ "ATOM" ∧ recordName l ≠ "HETATM" ∧
        recordName l ≠ "ENDMDL") →
      scanLines ie lines st data = .ok data := by
  induction lines with
  | nil => intro st data _; rfl
  | cons l rest ih =>
    intro st data hno
    have hl := hno l (List.mem_cons_self l rest)
    have hrest := fun x hx => hno x (List.mem_cons_of_mem l hx)
    unfold scanLines
    rw [if_neg (by simp [hl.1, hl.2.1]), if_neg (by simp [hl.2.2])]
    by_cases hend : recordName l = "END"
    · rw [if_pos hend]
      cases ie with
      | true => simpa using ih st data hrest
      | false => rfl
    · rw [if_neg hend]
      exact ih st data hrest

/-! # The claims -/

/-- Claim C8 (confirmed): every over-wide field value rendered into a
fixed-width column of a serialized `ATOM`/`HETATM` line is truncated by `cap`
to its *last* `l` characters — the rendered text is the length-`l` suffix of
the value, never its prefix — and in particular a six-digit atom serial
number is rendered as exactly its rightmost five digits, filling the serial
column exactly and never overflowing into the adjacent column. -/
theorem claim_C8 (s : String) (l : Nat) (ct : String → String) (het : Bool)
    (mc mid ic pid slb atomT : String) (a : Atom)
    (hl : 0 < l) (hs : l < s.length) (h6 : (toString a.id).length = 6) :
    (cap s l).toList = s.toList.drop (s.length - l) ∧
    (cap s l).length = l ∧
    s.toList = s.toList.take (s.length - l) ++ (cap s l).toList ∧
    (renderAtom ct het mc mid ic pid slb atomT a).atomNumber =
      String.mk ((toString a.id).toList.drop 1) ∧
    ((renderAtom ct het mc mid ic pid slb atomT a).atomNumber).length = 5 := by
  have h5lt : 5 < (toString a.id).length := by omega
  have h5pos : (0 : Nat) < 5 := by omega
  have hcap5 : cap (toString a.id) 5 = String.mk ((toString a.id).toList.drop 1) := by
    have : (toString a.id).length - 5 = 1 := by omega
    simp [cap, Nat.not_le.mpr h5lt, this]
  have hcaplen : (cap (toString a.id) 5).length = 5 := length_cap_of_lt h5pos h5lt
  refine ⟨cap_toList_of_lt hl hs, length_cap_of_lt hl hs, ?_, ?_, ?_⟩
  · rw [cap_toList_of_lt hl hs]
    exact (List.take_append_drop (s.length - l) s.toList).symm
  · show rjust 5 (cap (toString a.id) 5) = _
    rw [rjust_of_length_eq hcaplen, hcap5]
  · show (rjust 5 (cap (toString a.id) 5)).length = 5
    rw [rjust_of_length_eq hcaplen, hcaplen]

/-- Concrete instantiation of the C8 theorem. -/
def exAtomC8 : Atom :=
  { vector := ("1.0", "2.0", "3.0"), element := "C", id := 123456,
    resLabel := "CA", occupancy := "1.00", bfactor := "0.00", charge := "",
    state := "A" }

theorem claim_C8_witness :
    (cap "abcdefg" 3).length = 3 ∧
    (renderAtom (fun _ => "") false "" "" "" "" "" "" exAtomC8).atomNumber =
      "23456" := by
  have h := claim_C8 "abcdefg" 3 (fun _ => "") false "" "" "" "" "" "" exAtomC8
    (by decide) (by decide) (by decide)
  refine ⟨h.2.1, ?_⟩
  rw [h.2.2.2.1]
  rfl

/-- Claim C3 (corrected): `make_ampal` raises the "empty structure" error
only on a parse tree with zero models, but scanning always materializes model
`0`, so input with no `ATOM`/`HETATM` records (and no `ENDMDL`) parses to an
*empty bare Assembly* rather than failing. -/
theorem claim_C3 (lines : List String) (pdbId : String) (ignoreEnd : Bool)
    (hno : ∀ l ∈ lines, recordName l ≠ "ATOM" ∧ recordName l ≠ "HETATM" ∧
      recordName l ≠ "ENDMDL") :
    loadPdb lines pdbId ignoreEnd =
      .ok (.assembly { id := pdbId, molecules := [] }) ∧
    makeAmpal [] pdbId = .error .emptyParseTree := by
  constructor
  · show (do makeAmpal (← parsePdbLines ignoreEnd lines) pdbId) = _
    rw [show parsePdbLines ignoreEnd lines = .ok [(0, [])] from
      scanLines_no_atoms ignoreEnd lines 0 [(0, [])] hno]
    rfl
  · rfl

/-- Counterexample to C3 as stated: the empty input has no `ATOM`/`HETATM`
record, yet parsing succeeds and returns an (empty) hierarchy object. -/
theorem claim_C3_counterexample :
    loadPdb [] "1abc" false = .ok (.assembly { id := "1abc", molecules := [] }) := by
  rfl

/-- The container branch of `make_ampal` appends one assembly per non-empty
model it folds over. -/
theorem makeAmpalStep_fold_length (pid : String) :
    ∀ (l : List (Nat × ModelData)) (acc : List Assembly) (res : List Assembly),
      l.foldlM (makeAmpalStep pid) acc = .ok res →
      res.length = acc.length + (l.filter (fun kv => kv.2 ≠ [])).length := by
  intro l
  induction l with
  | nil =>
    intro acc res h
    simp [List.foldlM, pure, Except.pure] at h
    simp [← h]
  | cons kv t ih =>
    intro acc res h
    rw [foldlM_cons] at h
    by_cases hne : kv.2 = []
    · have hcond : ¬(kv.2 ≠ []) := by simpa using hne
      have hstep : makeAmpalStep pid acc kv = .ok acc := by
        unfold makeAmpalStep
        rw [if_neg hcond]
        rfl
      rw [hstep] at h
      have := ih acc res h
      simpa [hne] using this
    · cases hps : procState kv.2 (pid ++ "_state_" ++ toString (kv.1 + 1)) with
      | error e =>
        have hstep : makeAmpalStep pid acc kv = .error e := by
          simp [makeAmpalStep, hne, hps, Bind.bind, Except.bind]
        rw [hstep] at h
        cases h
      | ok a =>
        have hstep : makeAmpalStep pid acc kv = .ok (acc ++ [a]) := by
          simp [makeAmpalStep, hne, hps, Bind.bind, Except.bind, pure, Except.pure]
        rw [hstep] at h
        have := ih (acc ++ [a]) res h
        simp [hne] at this ⊢
        omega

/-- Claim C5 (corrected): `make_ampal` returns an `AmpalContainer` exactly
when the parse tree holds more than one model index (i.e. at least one
`ENDMDL` was scanned), and the container then holds one `Assembly` per
*non-empty* model — so N `ENDMDL` boundaries give N assemblies only when
exactly N models are non-empty, and nothing constrains the assemblies' chain
ids to coincide. -/
theorem claim_C5 (data : ParseData) (pdbId : String) (r : AmpalResult)
    (hok : makeAmpal data pdbId = .ok r) :
    ((∃ cid asms, r = .container cid asms) ↔ 1 < data.length) ∧
    (∀ cid asms, r = .container cid asms →
      asms.length = (data.filter (fun kv => kv.2 ≠ [])).length) := by
  by_cases h1 : 1 < data.length
  · rw [makeAmpal, if_pos h1] at hok
    cases hfold : (sortByKey natLeB data).foldlM (makeAmpalStep pdbId) [] with
    | error e => rw [hfold] at hok; cases hok
    | ok asms =>
      rw [hfold] at hok
      have hr : r = .container pdbId asms := by
        simpa [Bind.bind, Except.bind] using hok.symm
      subst hr
      constructor
      · exact ⟨fun _ => h1, fun _ => ⟨pdbId, asms, rfl⟩⟩
      · intro cid asms' heq
        injection heq with h₁ h₂
        subst h₂
        have hlen := makeAmpalStep_fold_length pdbId (sortByKey natLeB data) [] asms hfold
        have hperm : ((sortByKey natLeB data).filter (fun kv => kv.2 ≠ [])).length =
            (data.filter (fun kv => kv.2 ≠ [])).length :=
          ((sortByKey_perm natLeB data).filter _).length_eq
        rw [← hperm]
        simpa using hlen
  · rw [makeAmpal, if_neg h1] at hok
    by_cases h2 : data.length = 1
    · rw [if_pos h2] at hok
      split at hok
      case _ model hlk =>
        cases hps : procState model pdbId with
        | error e =>
          rw [hps] at hok
          simp [Bind.bind, Except.bind] at hok
        | ok a =>
          rw [hps] at hok
          have hr : r = .assembly a := by
            simpa [Bind.bind, Except.bind] using hok.symm
          subst hr
          constructor
          · constructor
            · rintro ⟨cid, asms, heq⟩; cases heq
            · intro hgt; exact absurd hgt h1
          · intro cid asms heq; cases heq
      case _ hlk => cases hok
    · rw [if_neg h2] at hok
      cases hok

/-- Concrete chain-id extraction used by the C5 counterexample. -/
def containerChainIds (res : Except PdbError AmpalResult) :
    Option (Nat × List (List String)) :=
  match res with
  | .ok (.container _ asms) =>
    some (asms.length, asms.map (fun a => a.molecules.map Chain.id))
  | _ => none

/-- Counterexample to C5 as stated: a file with exactly one `ENDMDL`
boundary (atoms on both sides, on different chains) yields a container of
*two* assemblies whose chain-id sets differ. -/
theorem claim_C5_counterexample :
    containerChainIds
      (loadPdb
        [mkAtomLine "ATOM" 1 "N" "" "ALA" "A" 1 "" "1.0" "2.0" "3.0" "1.00" "0.00" "N" "",
         "ENDMDL",
         mkAtomLine "ATOM" 1 "N" "" "ALA" "B" 1 "" "1.0" "2.0" "3.0" "1.00" "0.00" "N" ""]
        "x" false) = some (2, [["A"], ["B"]]) := by
  rfl

/-- A failing chain makes the lowering of its whole model fail. -/
theorem procState_error_of_chain (model : ModelData) (cid : String)
    (cinfo : ChainData) (e : PdbError) (hmem : (cid, cinfo) ∈ model)
    (herr : procChain cinfo = .error e) :
    ∀ stateId, ∃ e₁, procState model stateId = .error e₁ := by
  intro stateId
  have hmem₁ : (cid, cinfo) ∈ sortByKey pyStrLe model :=
    ((sortByKey_perm pyStrLe model).mem_iff).mpr hmem
  have hstep : ∀ acc : List Chain, ∃ e₁, procStateStep acc (cid, cinfo) = .error e₁ := by
    intro acc
    exact ⟨e, by simp [procStateStep, herr, Bind.bind, Except.bind]⟩
  rcases foldlM_error_of_mem procStateStep (sortByKey pyStrLe model) (cid, cinfo) hmem₁
    hstep [] with ⟨e₁, he₁⟩
  exact ⟨e₁, by simp [procState, he₁, Bind.bind, Except.bind]⟩

/-- Claim C6 (confirmed): a chain whose markers include both "P" (a standard
amino acid seen via `ATOM`) and "N" (a nucleic-acid `ATOM` record) makes
`proc_chain` raise the `ValueError` for multiple polymer types in one chain,
and lowering of the whole file aborts with an error: no hierarchy is
returned. -/
theorem claim_C6 (data : ParseData) (pdbId : String) (s : Nat)
    (model : ModelData) (cid : String) (cinfo : ChainData) (l₁ l₂ : ChainLabel)
    (hs : (s, model) ∈ data) (hc : (cid, cinfo) ∈ model)
    (h₁ : l₁ ∈ cinfo.labels) (h₂ : l₂ ∈ cinfo.labels)
    (hp : l₁.poly = "P") (hn : l₂.poly = "N") :
    procChain cinfo = .error .multipleAtomTypes ∧
    ∃ e, makeAmpal data pdbId = .error e := by
  have hchain : procChain cinfo = .error .multipleAtomTypes := by
    cases hlab : cinfo.labels with
    | nil => rw [hlab] at h₁; cases h₁
    | cons c rest =>
      have hP : "P" ∈ ((c :: rest).map ChainLabel.poly).filter (· ≠ "") := by
        refine List.mem_filter.mpr ⟨?_, by decide⟩
        rw [← hlab, ← hp]
        exact List.mem_map_of_mem ChainLabel.poly h₁
      have hN : "N" ∈ ((c :: rest).map ChainLabel.poly).filter (· ≠ "") := by
        refine List.mem_filter.mpr ⟨?_, by decide⟩
        rw [← hlab, ← hn]
        exact List.mem_map_of_mem ChainLabel.poly h₂
      unfold procChain
      simp only [hlab]
      rw [if_pos ⟨hP, hN⟩]
  refine ⟨hchain, ?_⟩
  by_cases hgt : 1 < data.length
  · rw [makeAmpal, if_pos hgt]
    have hmem₁ : (s, model) ∈ sortByKey natLeB data :=
      ((sortByKey_perm natLeB data).mem_iff).mpr hs
    have hne : model ≠ [] := by
      intro hc0
      rw [hc0] at hc
      cases hc
    have hstep : ∀ acc : List Assembly,
        ∃ e₁, makeAmpalStep pdbId acc (s, model) = .error e₁ := by
      intro acc
      rcases procState_error_of_chain model cid cinfo _ hc hchain
        (pdbId ++ "_state_" ++ toString (s + 1)) with ⟨e₁, he₁⟩
      exact ⟨e₁, by simp [makeAmpalStep, hne, he₁, Bind.bind, Except.bind]⟩
    rcases foldlM_error_of_mem (makeAmpalStep pdbId) (sortByKey natLeB data) (s, model)
      hmem₁ hstep [] with ⟨e₁, he₁⟩
    exact ⟨e₁, by simp [he₁, Bind.bind, Except.bind]⟩
  · by_cases h1 : data.length = 1
    · obtain ⟨x, hx⟩ : ∃ x, data = [x] := by
        cases data with
        | nil => simp at h1
        | cons y t =>
          cases t with
          | nil => exact ⟨y, rfl⟩
          | cons z t₂ => simp at h1
      subst hx
      have hsx : (s, model) = x := by simpa using hs
      subst hsx
      rw [makeAmpal, if_neg hgt, if_pos h1]
      by_cases hs0 : s = 0
      · subst hs0
        have hlk : odLookup 0 [((0 : Nat), model)] = some model := by
          simp [odLookup]
        rw [hlk]
        rcases procState_error_of_chain model cid cinfo _ hc hchain pdbId with ⟨e₁, he₁⟩
        exact ⟨e₁, by simp [he₁, Bind.bind, Except.bind]⟩
      · have hlk : odLookup 0 [(s, model)] = none := by
          simp [odLookup, hs0]
        rw [hlk]
        exact ⟨.missingKey, rfl⟩
    · have h0 : data.length = 0 := by omega
      have : data = [] := List.length_eq_zero.mp h0
      subst this
      cases hs

/-- The chain data produced by scanning one `ATOM ALA` line and one
`ATOM DA` line under chain id `A` (checked against the scanner below). -/
def c6cinfo : ChainData :=
  { labels :=
      [{ chainId := "A", atType := "ATOM", poly := "P" },
       { chainId := "A", atType := "ATOM", poly := "N" }]
    residues :=
      [((1, ""),
        { labels := [{ atType := "ATOM", resSeq := 1, resName := "ALA", iCode := "" }]
          atoms :=
            [(1,
              [{ atType := "ATOM", atSer := 1, atName := "N", altLoc := ""
                 resName := "ALA", chainId := "A", resSeq := 1, iCode := ""
                 x := "1.0", y := "2.0", z := "3.0", occupancy := "1.00"
                 tempFactor := "0.00", element := "N", charge := "" }])] }),
       ((2, ""),
        { labels := [{ atType := "ATOM", resSeq := 2, resName := "DA", iCode := "" }]
          atoms :=
            [(2,
              [{ atType := "ATOM", atSer := 2, atName := "N", altLoc := ""
                 resName := "DA", chainId := "A", resSeq := 2, iCode := ""
                 x := "1.0", y := "2.0", z := "3.0", occupancy := "1.00"
                 tempFactor := "0.00", element := "N", charge := "" }])] })] }

theorem claim_C6_witness :
    parsePdbLines false
      [mkAtomLine "ATOM" 1 "N" "" "ALA" "A" 1 "" "1.0" "2.0" "3.0" "1.00" "0.00" "N" "",
       mkAtomLine "ATOM" 2 "N" "" "DA" "A" 2 "" "1.0" "2.0" "3.0" "1.00" "0.00" "N" ""] =
      .ok [(0, [("A", c6cinfo)])] ∧
    procChain c6cinfo = .error .multipleAtomTypes ∧
    ∃ e, makeAmpal [(0, [("A", c6cinfo)])] "x" = .error e := by
  refine ⟨by rfl, ?_⟩
  exact claim_C6 [(0, [("A", c6cinfo)])] "x" 0 [("A", c6cinfo)] "A" c6cinfo
    { chainId := "A", atType := "ATOM", poly := "P" }
    { chainId := "A", atType := "ATOM", poly := "N" }
    (by decide) (by decide) (by decide) (by decide) rfl rfl

/-! ## Lowering lemmas for hetero-residue routing (claim C7) -/

/-- The shipped filter only ever classifies a residue as an on-chain
`Residue`. -/
theorem checkForNonCanonical_some {r : ResData} {p : MonClass × Bool}
    (h : checkForNonCanonical r = some p) : p = (.residue, true) := by
  unfold checkForNonCanonical at h
  split at h
  · cases h
  · split at h
    · cases h; rfl
    · cases h

/-- A monomer built with an explicit hetero class carries that class and the
hetero flag. -/
theorem procMonomer_some_cls {r : ResData} {c : MonClass} {m : Monomer}
    (h : procMonomer r (some c) = .ok m) : m.cls = c ∧ m.isHetero = true := by
  unfold procMonomer at h
  split at h
  · cases h
  · split at h
    · cases h
    · simp only [Bind.bind, Except.bind] at h
      cases hmc : monomerMolCode c _ with
      | error e => rw [hmc] at h; cases h
      | ok code =>
        rw [hmc] at h
        cases hmin : minString (odKeys (genStates (r.atoms.map Prod.snd))) with
        | none => rw [hmin] at h; cases h
        | some act =>
          rw [hmin] at h
          cases h
          exact ⟨rfl, rfl⟩

/-- A monomer built from an `ATOM`-classified residue is a `Residue` or a
`Nucleotide`, never a `Ligand`. -/
theorem procMonomer_none_not_ligand {r : ResData} {m : Monomer}
    (h : procMonomer r none = .ok m) : m.cls ≠ .ligand := by
  unfold procMonomer at h
  split at h
  · cases h
  · split at h
    · cases h
    · simp only [Bind.bind, Except.bind] at h
      split at h
      · -- ATOM branch
        cases hmc : monomerMolCode _ _ with
        | error e =>
          rw [hmc] at h
          cases h
        | ok code =>
          rw [hmc] at h
          cases hmin : minString (odKeys (genStates (r.atoms.map Prod.snd))) with
          | none => rw [hmin] at h; cases h
          | some act =>
            rw [hmin] at h
            cases h
            split
            · intro hcontra; cases hcontra
            · intro hcontra; cases hcontra
      · cases h

/-- Every successful routing step appends exactly one monomer: a
non-`Ligand` monomer to the chain, or (on a polymer chain) a `Ligand` to the
ligand group, or (on a ligand-group chain) a `Ligand` to the chain itself. -/
theorem procChainStep_ok_shape {polymer : Bool}
    {acc res : List Monomer × List Monomer}
    {entry : (Int × String) × ResData}
    (h : procChainStep polymer acc entry = .ok res) :
    (∃ m, res = (acc.1 ++ [m], acc.2) ∧ m.cls ≠ .ligand) ∨
    (∃ m, res = (acc.1, acc.2 ++ [m]) ∧ m.cls = .ligand ∧ polymer = true) ∨
    (∃ m, res = (acc.1 ++ [m], acc.2) ∧ polymer = false) := by
  unfold procChainStep at h
  split at h
  · cases h
  · split at h
    · -- ATOM
      simp only [Bind.bind, Except.bind] at h
      cases hpm : procMonomer entry.2 none with
      | error e => rw [hpm] at h; cases h
      | ok m =>
        rw [hpm] at h
        cases h
        exact .inl ⟨m, rfl, procMonomer_none_not_ligand hpm⟩
    · split at h
      · -- HETATM
        split at h
        case _ cls b hfilt =>
          have hp := checkForNonCanonical_some hfilt
          injection hp with hp₁ hp₂
          subst hp₁
          simp only [Bind.bind, Except.bind] at h
          cases hpm : procMonomer entry.2 (some MonClass.residue) with
          | error e => rw [hpm] at h; cases h
          | ok m =>
            rw [hpm] at h
            cases h
            have := (procMonomer_some_cls hpm).1
            exact .inl ⟨m, rfl, by rw [this]; intro hc; cases hc⟩
        case _ hfilt =>
          simp only [Bind.bind, Except.bind] at h
          cases hpm : procMonomer entry.2 (some MonClass.ligand) with
          | error e => rw [hpm] at h; cases h
          | ok m =>
            rw [hpm] at h
            cases hpol : polymer with
            | true =>
              rw [hpol] at h
              simp only [if_true] at h
              cases h
              exact .inr (.inl ⟨m, rfl, (procMonomer_some_cls hpm).1, rfl⟩)
            | false =>
              rw [hpol] at h
              simp only [if_false] at h
              cases h
              exact .inr (.inr ⟨m, rfl, rfl⟩)
      · cases h

/-- A successful routing fold only ever extends the two accumulators. -/
theorem procChain_fold_mono (polymer : Bool) :
    ∀ (rs : List ((Int × String) × ResData))
      (acc res : List Monomer × List Monomer),
      rs.foldlM (procChainStep polymer) acc = .ok res →
      (∀ m ∈ acc.1, m ∈ res.1) ∧ (∀ m ∈ acc.2, m ∈ res.2) := by
  intro rs
  induction rs with
  | nil =>
    intro acc res h
    simp only [List.foldlM] at h
    cases h
    exact ⟨fun m hm => hm, fun m hm => hm⟩
  | cons entry t ih =>
    intro acc res h
    rw [foldlM_cons] at h
    cases hstep : procChainStep polymer acc entry with
    | error e => rw [hstep] at h; cases h
    | ok acc₁ =>
      rw [hstep] at h
      have hrec := ih acc₁ res h
      rcases procChainStep_ok_shape hstep with ⟨m, hsh, _⟩ | ⟨m, hsh, _, _⟩ | ⟨m, hsh, _⟩ <;>
        subst hsh
      · exact ⟨fun x hx => hrec.1 x (by simp [hx]), fun x hx => hrec.2 x hx⟩
      · exact ⟨fun x hx => hrec.1 x hx, fun x hx => hrec.2 x (by simp [hx])⟩
      · exact ⟨fun x hx => hrec.1 x (by simp [hx]), fun x hx => hrec.2 x hx⟩

/-- On a polymer chain, every monomer in the ligand accumulator is a
`Ligand` and every monomer on the chain is not. -/
theorem procChain_fold_cls :
    ∀ (rs : List ((Int × String) × ResData))
      (acc res : List Monomer × List Monomer),
      rs.foldlM (procChainStep true) acc = .ok res →
      (∀ m ∈ acc.1, m.cls ≠ .ligand) → (∀ m ∈ acc.2, m.cls = .ligand) →
      (∀ m ∈ res.1, m.cls ≠ .ligand) ∧ (∀ m ∈ res.2, m.cls = .ligand) := by
  intro rs
  induction rs with
  | nil =>
    intro acc res h h₁ h₂
    simp only [List.foldlM] at h
    cases h
    exact ⟨h₁, h₂⟩
  | cons entry t ih =>
    intro acc res h h₁ h₂
    rw [foldlM_cons] at h
    cases hstep : procChainStep true acc entry with
    | error e => rw [hstep] at h; cases h
    | ok acc₁ =>
      rw [hstep] at h
      rcases procChainStep_ok_shape hstep with ⟨m, hsh, hcls⟩ | ⟨m, hsh, hcls, _⟩ |
        ⟨m, hsh, hpf⟩
      · subst hsh
        refine ih _ res h ?_ h₂
        intro x hx
        rcases List.mem_append.mp hx with hx₁ | hx₁
        · exact h₁ x hx₁
        · rw [List.mem_singleton.mp hx₁]; exact hcls
      · subst hsh
        refine ih _ res h h₁ ?_
        intro x hx
        rcases List.mem_append.mp hx with hx₁ | hx₁
        · exact h₂ x hx₁
        · rw [List.mem_singleton.mp hx₁]; exact hcls
      · cases hpf

/-- The routing destination of one `HETATM` residue of the fold: a
filter-classified residue joins the chain accumulator, anything else joins
the ligand accumulator (of a polymer chain). -/
theorem procChain_fold_mem_het (polymer : Bool) :
    ∀ (rs : List ((Int × String) × ResData))
      (acc res : List Monomer × List Monomer),
      rs.foldlM (procChainStep polymer) acc = .ok res →
      ∀ entry ∈ rs, ∀ lbl rest, entry.2.labels = lbl :: rest →
        lbl.atType = "HETATM" →
        (∀ p, checkForNonCanonical entry.2 = some p →
          ∃ m, procMonomer entry.2 (some p.1) = .ok m ∧ m ∈ res.1) ∧
        (checkForNonCanonical entry.2 = none →
          ∃ m, procMonomer entry.2 (some .ligand) = .ok m ∧
            m ∈ (if polymer then res.2 else res.1)) := by
  intro rs
  induction rs with
  | nil => intro acc res h entry hmem; cases hmem
  | cons entry₀ t ih =>
    intro acc res h entry hmem lbl rest hlab hhet
    rw [foldlM_cons] at h
    cases hstep : procChainStep polymer acc entry₀ with
    | error e => rw [hstep] at h; cases h
    | ok acc₁ =>
      rw [hstep] at h
      rcases List.mem_cons.mp hmem with heq | hmem₁
    -- the processed entry is this one: evaluate the step by hand
      · subst heq
        have hmono := procChain_fold_mono polymer t acc₁ res h
        unfold procChainStep at hstep
        rw [hlab] at hstep
        simp only at hstep
        have hnatom : ¬lbl.atType = "ATOM" := by rw [hhet]; decide
        rw [if_neg hnatom, if_pos hhet] at hstep
        constructor
        · intro p hfilt
          rw [hfilt] at hstep
          have hp := checkForNonCanonical_some hfilt
          subst hp
          simp only [Bind.bind, Except.bind] at hstep
          cases hpm : procMonomer entry.2 (some MonClass.residue) with
          | error e => rw [hpm] at hstep; cases hstep
          | ok m =>
            rw [hpm] at hstep
            cases hstep
            exact ⟨m, rfl, hmono.1 m (by simp)⟩
        · intro hfilt
          rw [hfilt] at hstep
          simp only [Bind.bind, Except.bind] at hstep
          cases hpm : procMonomer entry.2 (some MonClass.ligand) with
          | error e => rw [hpm] at hstep; cases hstep
          | ok m =>
            rw [hpm] at hstep
            cases hpol : polymer with
            | true =>
              rw [hpol] at hstep
              simp only [if_true] at hstep
              cases hstep
              exact ⟨m, rfl, by simp [hmono.2 m (by simp)]⟩
            | false =>
              rw [hpol] at hstep
              simp only [if_false] at hstep
              cases hstep
              exact ⟨m, rfl, by simp [hmono.1 m (by simp)]⟩
      · exact ih acc₁ res h entry hmem₁ lbl rest hlab hhet

/-- Unpacking a successfully lowered polymer chain: its monomer and ligand
lists are exactly the two accumulators of the polymer-mode routing fold. -/
theorem procChain_ok_polymer {cinfo : ChainData} {ch : Chain}
    {ligs : List Monomer} (h : procChain cinfo = .ok ch)
    (hlig : ch.ligands = some ligs) :
    cinfo.residues.foldlM (procChainStep true) ([], []) = .ok (ch.monomers, ligs) := by
  unfold procChain at h
  cases hlab : cinfo.labels with
  | nil => rw [hlab] at h; cases h
  | cons c rest =>
    simp only [hlab] at h
    split at h
    · cases h
    · simp only [Bind.bind, Except.bind] at h
      split at h
      · -- "P": Polypeptide, polymer = true
        cases hfold : cinfo.residues.foldlM (procChainStep true) ([], []) with
        | error e => rw [hfold] at h; cases h
        | ok ml =>
          rw [hfold] at h
          cases h
          simp only [reduceIte] at hlig
          injection hlig with hligs
          rw [← hligs]
      · split at h
        · -- "N": Polynucleotide, polymer = true
          cases hfold : cinfo.residues.foldlM (procChainStep true) ([], []) with
          | error e => rw [hfold] at h; cases h
          | ok ml =>
            rw [hfold] at h
            cases h
            simp only [reduceIte] at hlig
            injection hlig with hligs
            rw [← hligs]
        · split at h
          · -- "H": LigandGroup, ligands = none
            cases hfold : cinfo.residues.foldlM (procChainStep false) ([], []) with
            | error e => rw [hfold] at h; cases h
            | ok ml =>
              rw [hfold] at h
              cases h
              simp at hlig
          · cases h

/-- Claim C7 (confirmed): on a lowered polymer chain, a `HETATM` residue is
placed on the chain's own monomer sequence as a `Residue` exactly when its
atom-label set covers `{N, CA, C, O}` and its residue name has exactly three
characters; otherwise it is placed in the chain's associated ligand group as
a `Ligand`, and never in both places. -/
theorem claim_C7 (cinfo : ChainData) (ch : Chain) (ligs : List Monomer)
    (rid : Int × String) (r : ResData) (lbl : MonomerLabel)
    (rest : List MonomerLabel)
    (hok : procChain cinfo = .ok ch) (hlig : ch.ligands = some ligs)
    (hres : (rid, r) ∈ cinfo.residues)
    (hlab : r.labels = lbl :: rest) (hhet : lbl.atType = "HETATM") :
    ((checkForNonCanonical r).isSome →
      ∃ m, procMonomer r (some .residue) = .ok m ∧ m ∈ ch.monomers ∧
        m ∉ ligs ∧ m.cls = .residue) ∧
    (checkForNonCanonical r = none →
      ∃ m, procMonomer r (some .ligand) = .ok m ∧ m ∈ ligs ∧
        m ∉ ch.monomers ∧ m.cls = .ligand) ∧
    ((checkForNonCanonical r).isSome ↔
      ((["N", "CA", "C", "O"].all (· ∈ residueAtomLabels r)) ∧
        lbl.resName.length = 3)) := by
  have hfold := procChain_ok_polymer hok hlig
  have hcls := procChain_fold_cls cinfo.residues ([], []) (ch.monomers, ligs)
    hfold (by intro m hm; cases hm) (by intro m hm; cases hm)
  have hmem := procChain_fold_mem_het true cinfo.residues ([], [])
    (ch.monomers, ligs) hfold (rid, r) hres lbl rest hlab hhet
  refine ⟨?_, ?_, ?_⟩
  · intro hsome
    rcases Option.isSome_iff_exists.mp hsome with ⟨p, hp⟩
    have hp' := checkForNonCanonical_some hp
    subst hp'
    rcases hmem.1 _ hp with ⟨m, hpm, hmm⟩
    have hclsm := (procMonomer_some_cls hpm).1
    refine ⟨m, hpm, hmm, ?_, hclsm⟩
    intro hcontra
    have := hcls.2 m hcontra
    rw [hclsm] at this
    cases this
  · intro hnone
    rcases hmem.2 hnone with ⟨m, hpm, hmm⟩
    simp only [if_true] at hmm
    have hclsm := (procMonomer_some_cls hpm).1
    refine ⟨m, hpm, hmm, ?_, hclsm⟩
    intro hcontra
    exact (hcls.1 m hcontra) hclsm
  · have heq : checkForNonCanonical r =
        (if (["N", "CA", "C", "O"].all (· ∈ residueAtomLabels r)) ∧
            lbl.resName.length = 3
         then some (MonClass.residue, true) else none) := by
      unfold checkForNonCanonical
      simp only [hlab]
    rw [heq]
    by_cases hc : (["N", "CA", "C", "O"].all (· ∈ residueAtomLabels r)) ∧
        lbl.resName.length = 3
    · simp [hc]
    · simp [hc]

/-- Fixture record for the C7 witness chain. -/
def c7atom (ty : String) (ser : Int) (nm rn : String) (rs : Int) : AtomData :=
  { atType := ty, atSer := ser, atName := nm, altLoc := "", resName := rn,
    chainId := "A", resSeq := rs, iCode := "", x := "1.0", y := "2.0", z := "3.0",
    occupancy := "1.00", tempFactor := "0.00", element := "C", charge := "" }

/-- A `HETATM` selenomethionine residue carrying the full backbone. -/
def c7res : ResData :=
  { labels := [{ atType := "HETATM", resSeq := 2, resName := "MSE", iCode := "" }]
    atoms := [(2, [c7atom "HETATM" 2 "N" "MSE" 2]),
              (3, [c7atom "HETATM" 3 "CA" "MSE" 2]),
              (4, [c7atom "HETATM" 4 "C" "MSE" 2]),
              (5, [c7atom "HETATM" 5 "O" "MSE" 2])] }

/-- A protein chain (one `ATOM ALA` residue) that also contains `c7res`. -/
def c7cinfo : ChainData :=
  { labels := [{ chainId := "A", atType := "ATOM", poly := "P" },
               { chainId := "A", atType := "HETATM", poly := "H" }]
    residues :=
      [((1, ""),
        { labels := [{ atType := "ATOM", resSeq := 1, resName := "ALA", iCode := "" }]
          atoms := [(1, [c7atom "ATOM" 1 "N" "ALA" 1])] }),
       ((2, ""), c7res)] }

/-- The chain `proc_chain` lowers `c7cinfo` to. -/
def c7chain : Chain :=
  (procChain c7cinfo).toOption.getD
    { cls := .ligandGroup, id := "", monomers := [], ligands := none }

theorem claim_C7_witness :
    (checkForNonCanonical c7res).isSome = true ∧
    ∃ m, procMonomer c7res (some .residue) = .ok m ∧ m ∈ c7chain.monomers ∧
      m ∉ ([] : List Monomer) ∧ m.cls = .residue := by
  have h := claim_C7 c7cinfo c7chain [] (2, "") c7res
    { atType := "HETATM", resSeq := 2, resName := "MSE", iCode := "" } []
    (by rfl) (by rfl)
    (List.mem_cons_of_mem _ (List.mem_cons_self _ _)) (by rfl) (by rfl)
  exact ⟨by decide, h.1 (by decide)⟩

/-- Claim C9 (corrected): the mutators only police the AMPAL *kind* of the
child — `Polymer.append` accepts exactly `Monomer` instances and
`Polymer.extend` exactly `Polymer` instances, rejecting everything else with
`TypeError` — but they never inspect the monomer's molecule type, so
class-uniformity is preserved only when the appended children already share
the polymer's monomer class. -/
theorem claim_C9 (p p₂ : Chain) (x : PyValue) (c : MonClass) :
    ((∃ q, polymerAppend p x = .ok q) ↔ ∃ m, x = .monomer m) ∧
    ((∃ q, polymerExtend p x = .ok q) ↔ ∃ r, x = .polymer r) ∧
    (∀ m q, uniformClass p c → polymerAppend p (.monomer m) = .ok q →
      m.cls = c → uniformClass q c) ∧
    (∀ q, uniformClass p c → uniformClass p₂ c →
      polymerExtend p (.polymer p₂) = .ok q → uniformClass q c) := by
  refine ⟨?_, ?_, ?_, ?_⟩
  · constructor
    · rintro ⟨q, hq⟩
      cases x with
      | monomer m => exact ⟨m, rfl⟩
      | polymer r => cases hq
      | assembly a => cases hq
      | other => cases hq
    · rintro ⟨m, hm⟩
      subst hm
      exact ⟨{ p with monomers := p.monomers ++ [m] }, rfl⟩
  · constructor
    · rintro ⟨q, hq⟩
      cases x with
      | polymer r => exact ⟨r, rfl⟩
      | monomer m => cases hq
      | assembly a => cases hq
      | other => cases hq
    · rintro ⟨r, hr⟩
      subst hr
      exact ⟨{ p with monomers := p.monomers ++ r.monomers }, rfl⟩
  · intro m q hu hq hc
    cases hq
    intro m₁ hm₁
    rcases List.mem_append.mp hm₁ with hin | hin
    · exact hu m₁ hin
    · rw [List.mem_singleton.mp hin]; exact hc
  · intro q hu hu₂ hq
    cases hq
    intro m₁ hm₁
    rcases List.mem_append.mp hm₁ with hin | hin
    · exact hu m₁ hin
    · exact hu₂ m₁ hin

/-- A residue-class monomer fixture. -/
def c9resM : Monomer :=
  { cls := .residue, molCode := "ALA", id := "1", insertionCode := "",
    isHetero := false, states := [("A", [])], activeState := "A" }

/-- A ligand-class monomer fixture. -/
def c9ligM : Monomer :=
  { cls := .ligand, molCode := "HOH", id := "2", insertionCode := "",
    isHetero := true, states := [("A", [])], activeState := "A" }

/-- A protein chain holding only residue-class monomers. -/
def c9p : Chain :=
  { cls := .polypeptide, id := "A", monomers := [c9resM], ligands := some [] }

theorem claim_C9_witness :
    polymerAppend c9p (.monomer c9resM) =
      .ok { c9p with monomers := [c9resM, c9resM] } ∧
    uniformClass { c9p with monomers := [c9resM, c9resM] } .residue := by
  have h := claim_C9 c9p c9p (.monomer c9resM) .residue
  exact ⟨rfl, h.2.2.1 c9resM { c9p with monomers := [c9resM, c9resM] }
    (by decide) rfl rfl⟩

/-- Counterexample to C9 as stated: appending a `Ligand`-class monomer to a
class-uniform protein polymer is *accepted* (it is a `Monomer` instance) and
breaks molecule-type uniformity. -/
theorem claim_C9_counterexample :
    polymerAppend c9p (.monomer c9ligM) =
      .ok { c9p with monomers := [c9resM, c9ligM] } ∧
    uniformClass c9p .residue ∧
    ¬ uniformClass { c9p with monomers := [c9resM, c9ligM] } .residue := by
  exact ⟨rfl, by decide, by decide⟩

/-! ## Accumulation-loop lemmas (`gen_states`, claims C1/C2/C10) -/

/-- Lookup through a key-preserving map over an association list. -/
theorem odLookup_map_pair {κ β γ : Type} [DecidableEq κ]
    (g : κ × β → γ) (k : κ) (d : List (κ × β)) :
    odLookup k (d.map (fun kv => (kv.1, g kv))) =
      (odLookup k d).map (fun v => g (k, v)) := by
  induction d with
  | nil => rfl
  | cons h t ih =>
    by_cases hk : h.1 = k
    · subst hk
      simp [odLookup]
    · simp [odLookup, hk, ih]

/-- The last record of the residue with a given state and atom name. -/
def lastMatch (st k : String) (rs : List AtomData) : Option AtomData :=
  (rs.filter (fun a => normState a = st ∧ a.atName = k)).getLast?

/-- The state dictionary accumulated for `st` (empty when the state never
occurs). -/
def accumDict (rs : List AtomData) (st : String) : StateDict :=
  (odLookup st (accumStates rs)).getD []

theorem accumStates_append (rs : List AtomData) (a : AtomData) :
    accumStates (rs ++ [a]) = accumStep (accumStates rs) a := by
  unfold accumStates
  rw [List.foldl_append]
  rfl

/-- The state keys of the accumulator are duplicate-free. -/
theorem accum_keys_nodup (rs : List AtomData) :
    (odKeys (accumStates rs)).Nodup := by
  induction rs using List.reverseRecOn with
  | nil => simp [accumStates, odKeys]
  | append_singleton rs a ih =>
    rw [accumStates_append]
    exact odKeys_odInsert_nodup _ _ ih

/-- Every accumulated state dictionary has duplicate-free atom-name keys. -/
theorem accum_dict_keys_nodup (rs : List AtomData) (st : String) :
    (odKeys (accumDict rs st)).Nodup := by
  induction rs using List.reverseRecOn with
  | nil => simp [accumDict, accumStates, odLookup, odKeys]
  | append_singleton rs a ih =>
    unfold accumDict at ih ⊢
    rw [accumStates_append]
    unfold accumStep
    by_cases hst : normState a = st
    · rw [hst, odLookup_odInsert_self]
      simp only [Option.getD_some]
      exact odKeys_odInsert_nodup _ _ (by simpa [accumDict] using ih)
    · rw [odLookup_odInsert_ne _ _ (by simpa using Ne.symm hst)]
      exact ih

/-- Last-record-wins: the accumulated binding for an atom name in a state is
the atom built from the last record of the residue carrying that state and
name (in the parser's per-serial traversal order). -/
theorem accum_lookup_lastMatch (rs : List AtomData) (st k : String) :
    odLookup k (accumDict rs st) =
      (lastMatch st k rs).map (fun a => mkStateAtom a st) := by
  induction rs using List.reverseRecOn with
  | nil => simp [accumDict, accumStates, lastMatch, odLookup]
  | append_singleton rs a ih =>
    unfold accumDict at ih ⊢
    rw [accumStates_append]
    unfold accumStep
    have hfl : lastMatch st k (rs ++ [a]) =
        (if normState a = st ∧ a.atName = k then some a else lastMatch st k rs) := by
      unfold lastMatch
      rw [List.filter_append]
      by_cases hm : normState a = st ∧ a.atName = k
      · rw [if_pos hm]
        simp [hm]
      · rw [if_neg hm]
        have : List.filter (fun x => decide (normState x = st ∧ x.atName = k)) [a] = [] := by
          simp [hm]
        rw [this, List.append_nil]
    rw [hfl]
    by_cases hst : normState a = st
    · rw [hst, odLookup_odInsert_self]
      simp only [Option.getD_some]
      by_cases hk : a.atName = k
      · rw [← hk, odLookup_odInsert_self]
        simp [hst, hk]
      · rw [odLookup_odInsert_ne _ _ (Ne.symm hk)]
        rw [if_neg (by intro hc; exact hk hc.2)]
        exact ih
    · rw [odLookup_odInsert_ne _ _ (by simpa using Ne.symm hst)]
      rw [if_neg (by intro hc; exact hst hc.1)]
      exact ih

/-! ## Backfill-loop lemmas (claims C1/C2) -/

theorem odLookup_some_mem {κ β : Type} [DecidableEq κ] {k : κ} {v : β}
    {d : List (κ × β)} (h : odLookup k d = some v) : (k, v) ∈ d := by
  induction d with
  | nil => cases h
  | cons h₀ t ih =>
    by_cases hk : h₀.1 = k
    · rw [odLookup, if_pos hk] at h
      injection h with hv
      subst hv hk
      exact List.mem_cons_self _ _
    · rw [odLookup, if_neg hk] at h
      exact List.mem_cons_of_mem _ (ih h)

theorem odLookup_exists_of_mem_keys {κ β : Type} [DecidableEq κ] {k : κ}
    {d : List (κ × β)} (h : k ∈ odKeys d) : ∃ v, odLookup k d = some v := by
  have := (odLookup_isSome_iff k d).mpr h
  exact Option.isSome_iff_exists.mp this

/-- The atom-label keys of a backfilled state are exactly the reference
state's keys. -/
theorem odKeys_backfillState (refD : StateDict) (s : String) (d : StateDict) :
    odKeys (backfillState refD s d) = odKeys refD := by
  unfold backfillState odKeys
  rw [List.map_map]
  rfl

/-- Lookup in a backfilled state: a label present in the reference resolves
to the state's own atom when it has one and otherwise to a restamped copy of
the reference atom; labels absent from the reference are gone. -/
theorem odLookup_backfillState (refD : StateDict) (s : String) (d : StateDict)
    (k : String) :
    odLookup k (backfillState refD s d) =
      (odLookup k refD).map
        (fun v =>
          match odLookup k d with
          | some a => a
          | none => copyAtom v s) := by
  unfold backfillState
  exact odLookup_map_pair _ k refD

/-- Backfilling the reference state from itself reproduces it. -/
theorem backfillState_self (refD : StateDict) (s : String)
    (hnd : (odKeys refD).Nodup) : backfillState refD s refD = refD := by
  unfold backfillState
  have : ∀ kv ∈ refD,
      (kv.1,
        (match odLookup kv.1 refD with
         | some a => a
         | none => copyAtom kv.2 s)) = kv := by
    intro kv hkv
    have : odLookup kv.1 refD = some kv.2 := odLookup_of_mem hnd hkv
    rw [this]
  rw [List.map_congr_left this]
  exact List.map_id refD

/-- The partially backfilled dictionary: states with keys in `P` already
rebuilt from the reference, the rest untouched. -/
def mixState (refD : StateDict) (P : List String)
    (sts : List (String × StateDict)) : List (String × StateDict) :=
  sts.map (fun kv => (kv.1, if kv.1 ∈ P then backfillState refD kv.1 kv.2 else kv.2))

theorem mixState_nil (refD : StateDict) (sts : List (String × StateDict)) :
    mixState refD [] sts = sts := by
  unfold mixState
  have : ∀ kv ∈ sts,
      (kv.1, if kv.1 ∈ ([] : List String) then backfillState refD kv.1 kv.2 else kv.2) =
        kv := by
    intro kv _
    simp
  rw [List.map_congr_left this]
  exact List.map_id sts

theorem odLookup_mixState (refD : StateDict) (P : List String)
    (sts : List (String × StateDict)) (k : String) :
    odLookup k (mixState refD P sts) =
      (odLookup k sts).map
        (fun d => if k ∈ P then backfillState refD k d else d) := by
  unfold mixState
  exact odLookup_map_pair _ k sts

/-- Extending the processed-key set leaves untouched the entries whose keys
are not the new one. -/
theorem mixState_congr_notin (refD : StateDict) (P : List String) (tk : String)
    (sts : List (String × StateDict)) (h : tk ∉ odKeys sts) :
    mixState refD (P ++ [tk]) sts = mixState refD P sts := by
  unfold mixState
  refine List.map_congr_left ?_
  intro kv hkv
  have hne : kv.1 ≠ tk := by
    intro hc
    exact h (hc ▸ (by simpa [odKeys] using List.mem_map_of_mem Prod.fst hkv))
  simp [hne]

/-- Processing one more key of the fold is the same as enlarging the
processed set. -/
theorem mixState_insert (refD : StateDict) (P : List String) (tk : String)
    (d_tk : StateDict) :
    ∀ (sts : List (String × StateDict)), (odKeys sts).Nodup →
      (tk, d_tk) ∈ sts → tk ∉ P →
      odInsert tk (backfillState refD tk d_tk) (mixState refD P sts) =
        mixState refD (P ++ [tk]) sts := by
  intro sts
  induction sts with
  | nil => intro _ hmem _; cases hmem
  | cons h₀ t ih =>
    intro hnd hmem htkP
    have hnd2 : (h₀.1 :: odKeys t).Nodup := hnd
    have hnd' := List.nodup_cons.mp hnd2
    by_cases hs : h₀.1 = tk
    · have hd : h₀.2 = d_tk := by
        rcases List.mem_cons.mp hmem with heq | hmem₁
        · rw [← heq]
        · exfalso
          apply hnd'.1
          rw [hs]
          simpa [odKeys] using List.mem_map_of_mem Prod.fst hmem₁
      have hmix : mixState refD P (h₀ :: t) =
          (h₀.1, h₀.2) :: mixState refD P t := by
        unfold mixState
        simp only [List.map_cons]
        rw [if_neg (hs ▸ htkP)]
      rw [hmix]
      unfold odInsert
      rw [if_pos hs]
      have hrest : mixState refD (P ++ [tk]) t = mixState refD P t :=
        mixState_congr_notin refD P tk t (hs ▸ hnd'.1)
      unfold mixState
      simp only [List.map_cons]
      rw [if_pos (by simp [hs])]
      rw [hs, hd]
      unfold mixState at hrest
      rw [hrest]
    · have hmem₁ : (tk, d_tk) ∈ t := by
        rcases List.mem_cons.mp hmem with heq | hmem₁
        · exact absurd (by rw [← heq]) hs
        · exact hmem₁
      have hmix : mixState refD P (h₀ :: t) =
          (h₀.1, if h₀.1 ∈ P then backfillState refD h₀.1 h₀.2 else h₀.2) ::
            mixState refD P t := by
        unfold mixState
        simp only [List.map_cons]
      rw [hmix]
      unfold odInsert
      rw [if_neg hs]
      have := ih hnd'.2 hmem₁ htkP
      rw [this]
      unfold mixState
      simp only [List.map_cons]
      refine congrArg₂ List.cons ?_ rfl
      refine congrArg (Prod.mk h₀.1) ?_
      refine if_congr ?_ rfl rfl
      simp [hs]

/-- The backfill loop processed over any split of the key list. -/
theorem backfill_fold (refD : StateDict) (hrefnd : (odKeys refD).Nodup)
    (sts : List (String × StateDict)) (hnd : (odKeys sts).Nodup) (ref : String)
    (href : odLookup ref sts = some refD) :
    ∀ (ks P : List String), odKeys sts = P ++ ks →
      ks.foldl
        (fun s tState =>
          odInsert tState
            (backfillState ((odLookup ref s).getD []) tState
              ((odLookup tState s).getD [])) s)
        (mixState refD P sts) =
      mixState refD (P ++ ks) sts := by
  intro ks
  induction ks with
  | nil =>
    intro P hP
    simp [List.foldl]
  | cons tk ks₁ ih =>
    intro P hP
    have hndP : (P ++ tk :: ks₁).Nodup := hP ▸ hnd
    have htk_keys : tk ∈ odKeys sts := by rw [hP]; simp
    have htkP : tk ∉ P := by
      intro hc
      exact (List.nodup_append.mp hndP).2.2 hc (List.mem_cons_self tk ks₁)
    obtain ⟨d_tk, hd_tk⟩ := odLookup_exists_of_mem_keys htk_keys
    have h1 : odLookup tk (mixState refD P sts) = some d_tk := by
      rw [odLookup_mixState, hd_tk]
      simp [htkP]
    have h2 : odLookup ref (mixState refD P sts) = some refD := by
      rw [odLookup_mixState, href]
      by_cases hrefP : ref ∈ P
      · simp [hrefP, backfillState_self refD ref hrefnd]
      · simp [hrefP]
    rw [List.foldl_cons]
    have hstep :
        odInsert tk
          (backfillState ((odLookup ref (mixState refD P sts)).getD []) tk
            ((odLookup tk (mixState refD P sts)).getD []))
          (mixState refD P sts) =
          mixState refD (P ++ [tk]) sts := by
      rw [h1, h2]
      simp only [Option.getD_some]
      exact mixState_insert refD P tk d_tk sts hnd
        (odLookup_some_mem hd_tk) htkP
    rw [hstep]
    have hP₁ : odKeys sts = (P ++ [tk]) ++ ks₁ := by
      rw [hP, List.append_assoc]
      rfl
    have := ih (P ++ [tk]) hP₁
    rw [this, List.append_assoc]
    rfl

/-- When the backfill condition fires, `gen_states` rebuilds *every* state
from the reference state (the one with the lexicographically smallest
label). -/
theorem backfill_eq_of_cond (sts : List (String × StateDict))
    (hnd : (odKeys sts).Nodup) (refD : StateDict)
    (href : odLookup (refStateKey sts) sts = some refD)
    (hrefnd : (odKeys refD).Nodup) (hc : backfillCond sts = true) :
    backfill sts = sts.map (fun kv => (kv.1, backfillState refD kv.1 kv.2)) := by
  unfold backfill
  rw [if_pos hc]
  have h0 := backfill_fold refD hrefnd sts hnd (refStateKey sts) href
    (odKeys sts) [] (by simp)
  rw [mixState_nil] at h0
  refine Eq.trans h0 ?_
  unfold mixState
  refine List.map_congr_left ?_
  intro kv hkv
  have : kv.1 ∈ [] ++ odKeys sts := by
    simpa [odKeys] using List.mem_map_of_mem Prod.fst hkv
  rw [if_pos this]

/-- The reference state key can always be looked up in a non-empty state
dictionary. -/
theorem foldlMin_mem (t : List String) :
    ∀ k, (t.foldl (fun m x => if pyStrLt x m then x else m) k) ∈ k :: t := by
  induction t with
  | nil => intro k; simp
  | cons x t ih =>
    intro k
    simp only [List.foldl_cons]
    have h := ih (if pyStrLt x k then x else k)
    rcases List.mem_cons.mp h with heq | hmem
    · rw [heq]
      by_cases hlt : pyStrLt x k
      · simp [hlt]
      · simp [hlt]
    · exact List.mem_cons_of_mem _ (List.mem_cons_of_mem _ hmem)

theorem minString_mem {l : List String} {m : String}
    (h : minString l = some m) : m ∈ l := by
  cases l with
  | nil => cases h
  | cons k t =>
    unfold minString at h
    injection h with hm
    rw [← hm]
    exact foldlMin_mem t k

theorem refStateKey_lookup_exists (sts : List (String × StateDict))
    (hne : sts ≠ []) :
    ∃ refD, odLookup (refStateKey sts) sts = some refD := by
  cases sts with
  | nil => exact absurd rfl hne
  | cons h t =>
    have hm : minString (odKeys (h :: t)) =
        some ((odKeys t).foldl (fun m x => if pyStrLt x m then x else m) h.1) := rfl
    have hmem : ((odKeys t).foldl (fun m x => if pyStrLt x m then x else m) h.1) ∈
        odKeys (h :: t) := minString_mem hm
    have hrk : refStateKey (h :: t) =
        ((odKeys t).foldl (fun m x => if pyStrLt x m then x else m) h.1) := by
      unfold refStateKey
      rw [hm]
    rw [hrk]
    exact odLookup_exists_of_mem_keys hmem

/-- The states map of a successfully built monomer is exactly `gen_states`
of its records. -/
theorem procMonomer_states {r : ResData} {hetCls : Option MonClass}
    {m : Monomer} (h : procMonomer r hetCls = .ok m) :
    m.states = genStates (r.atoms.map Prod.snd) ∧
    minString (odKeys m.states) = some m.activeState := by
  cases hetCls with
  | some c =>
    unfold procMonomer at h
    split at h
    · cases h
    · split at h
      · cases h
      · simp only [Bind.bind, Except.bind] at h
        cases hmc : monomerMolCode c _ with
        | error e => rw [hmc] at h; cases h
        | ok code =>
          rw [hmc] at h
          cases hmin : minString (odKeys (genStates (r.atoms.map Prod.snd))) with
          | none => rw [hmin] at h; cases h
          | some act => rw [hmin] at h; cases h; exact ⟨rfl, hmin⟩
  | none =>
    unfold procMonomer at h
    split at h
    · cases h
    · split at h
      · cases h
      · simp only [Bind.bind, Except.bind] at h
        split at h
        · cases hmc : monomerMolCode _ _ with
          | error e => rw [hmc] at h; cases h
          | ok code =>
            rw [hmc] at h
            cases hmin : minString (odKeys (genStates (r.atoms.map Prod.snd))) with
            | none => rw [hmin] at h; cases h
            | some act => rw [hmin] at h; cases h; exact ⟨rfl, hmin⟩
        · cases h

/-- Claim C1 (corrected): when states have unequal atom counts, `gen_states`
rebuilds every state from the state with the *lexicographically smallest*
label (not the best-populated one): labels the reference has and a state
lacks are filled with restamped copies of the reference's atoms (same
coordinates, element and metadata), labels the state has and the reference
also has keep the state's own atom, and labels absent from the reference are
*removed* — every state ends up with exactly the reference's label set. -/
theorem claim_C1 (md : List (List AtomData)) (refD : StateDict)
    (hc : backfillCond (accumStates md.flatten) = true)
    (href : odLookup (refStateKey (accumStates md.flatten))
      (accumStates md.flatten) = some refD) :
    genStates md =
      (accumStates md.flatten).map
        (fun kv => (kv.1, backfillState refD kv.1 kv.2)) ∧
    (∀ s d, (s, d) ∈ accumStates md.flatten →
      (s, backfillState refD s d) ∈ genStates md ∧
      odKeys (backfillState refD s d) = odKeys refD ∧
      ∀ k, odLookup k (backfillState refD s d) =
        (odLookup k refD).map
          (fun v =>
            match odLookup k d with
            | some a => a
            | none => copyAtom v s)) := by
  have hnd := accum_keys_nodup md.flatten
  have hrefnd : (odKeys refD).Nodup := by
    have h₀ := accum_dict_keys_nodup md.flatten (refStateKey (accumStates md.flatten))
    unfold accumDict at h₀
    rw [href] at h₀
    simpa using h₀
  have heq : genStates md =
      (accumStates md.flatten).map
        (fun kv => (kv.1, backfillState refD kv.1 kv.2)) := by
    unfold genStates
    exact backfill_eq_of_cond _ hnd refD href hrefnd hc
  refine ⟨heq, ?_⟩
  intro s d hmem
  refine ⟨?_, odKeys_backfillState refD s d, fun k => odLookup_backfillState refD s d k⟩
  rw [heq]
  exact List.mem_map_of_mem _ hmem

/-- Fixture record for the alternate-state counterexamples. -/
def altAtom (ser : Int) (nm alt : String) : AtomData :=
  { atType := "ATOM", atSer := ser, atName := nm, altLoc := alt,
    resName := "ALA", chainId := "A", resSeq := 1, iCode := "",
    x := "1.0", y := "2.0", z := "3.0", occupancy := "0.50",
    tempFactor := "0.00", element := "C", charge := "" }

/-- Monomer data with states A = {N} and B = {N, CA} before
reconciliation. -/
def c1md : List (List AtomData) :=
  [[altAtom 1 "N" "A"], [altAtom 1 "N" "B"], [altAtom 2 "CA" "B"]]

/-- Counterexample to C1 as stated: before reconciliation state B is the
best-populated state (two atoms: N, CA) and state A lacks CA; the claim
demands CA be copied into A with no atom removed, but `gen_states` instead
copies from lexicographically-first A and *removes* CA from B: afterwards
neither state contains CA. -/
theorem claim_C1_counterexample :
    (accumDict c1md.flatten "A").length = 1 ∧
    (accumDict c1md.flatten "B").length = 2 ∧
    odLookup "CA" (accumDict c1md.flatten "B") ≠ none ∧
    odLookup "CA" ((odLookup "B" (genStates c1md)).getD []) = none ∧
    odLookup "CA" ((odLookup "A" (genStates c1md)).getD []) = none := by
  refine ⟨rfl, rfl, ?_, by rfl, by rfl⟩
  intro hc
  cases hc

/-- Claim C2 (corrected): after lowering, all alternate states of a monomer
expose the same residue-local label set *provided the states had unequal atom
counts* (the backfill condition); with more than one state of equal sizes the
backfill is skipped and the label sets may differ. -/
theorem claim_C2 (r : ResData) (hetCls : Option MonClass) (m : Monomer)
    (refD : StateDict)
    (hok : procMonomer r hetCls = .ok m)
    (hc : backfillCond (accumStates ((r.atoms.map Prod.snd).flatten)) = true)
    (href : odLookup (refStateKey (accumStates ((r.atoms.map Prod.snd).flatten)))
      (accumStates ((r.atoms.map Prod.snd).flatten)) = some refD) :
    ∀ kv₁ ∈ m.states, ∀ kv₂ ∈ m.states, odKeys kv₁.2 = odKeys kv₂.2 := by
  intro kv₁ h₁ kv₂ h₂
  have hstates := (procMonomer_states hok).1
  have hchar := (claim_C1 (r.atoms.map Prod.snd) refD hc href).1
  rw [hstates, hchar] at h₁ h₂
  rcases List.mem_map.mp h₁ with ⟨p₁, _, hp₁⟩
  rcases List.mem_map.mp h₂ with ⟨p₂, _, hp₂⟩
  rw [← hp₁, ← hp₂]
  simp only [odKeys_backfillState]

/-- State-key extraction used by the C2 counterexample. -/
def monomerStateKeys (res : Except PdbError Monomer) :
    Option (List (String × List String)) :=
  match res with
  | .ok m => some (m.states.map (fun kv => (kv.1, odKeys kv.2)))
  | .error _ => none

/-- A residue whose two alternate states have *equal* sizes but different
atom labels. -/
def c2res : ResData :=
  { labels := [{ atType := "ATOM", resSeq := 1, resName := "ALA", iCode := "" }]
    atoms := [(1, [altAtom 1 "N" "A"]), (2, [altAtom 2 "CA" "B"])] }

/-- Counterexample to C2 as stated: lowering this residue produces a monomer
with two states whose label sets {N} and {CA} differ — the equal-size guard
skips the backfill. -/
theorem claim_C2_counterexample :
    monomerStateKeys (procMonomer c2res none) =
      some [("A", ["N"]), ("B", ["CA"])] := by
  rfl

/-- Claim C10 (corrected): within `gen_states`' accumulation the later record
with a given (state, atom-name) pair silently overwrites the earlier one, and
when the backfill does not fire (one state, or all states equally sized) the
final state maps the name to exactly the later record's atom; every state
binds each label at most once.  (When the backfill fires, a label missing
from the lexicographically-first state is dropped entirely — see the
counterexample.) -/
theorem claim_C10 (md : List (List AtomData)) (st k : String)
    (hnc : backfillCond (accumStates md.flatten) = false) :
    genStates md = accumStates md.flatten ∧
    odLookup k ((odLookup st (genStates md)).getD []) =
      (lastMatch st k md.flatten).map (fun a => mkStateAtom a st) ∧
    ∀ s : String, (odKeys ((odLookup s (genStates md)).getD [])).Nodup := by
  have heq : genStates md = accumStates md.flatten := by
    unfold genStates backfill
    rw [hnc]
    simp
  refine ⟨heq, ?_, ?_⟩
  · rw [heq]
    exact accum_lookup_lastMatch md.flatten st k
  · intro s
    rw [heq]
    exact accum_dict_keys_nodup md.flatten s

/-- Monomer data with a duplicated (state B, name CA) pair whose label is
absent from state A. -/
def c10md : List (List AtomData) :=
  [[altAtom 1 "N" "A"], [altAtom 2 "CA" "B"], [altAtom 3 "CA" "B"],
   [altAtom 4 "CB" "B"]]

/-- Counterexample to C10 as stated: two records share (state B, name CA),
but the backfill (triggered by the unequal sizes 1 vs 2) rebuilds B from
state A, which lacks CA — the final state B contains *neither* record's
atom, not "only the Atom built from the later record". -/
theorem claim_C10_counterexample :
    (c10md.flatten.filter
      (fun a => normState a = "B" ∧ a.atName = "CA")).length = 2 ∧
    odLookup "CA" ((odLookup "B" (genStates c10md)).getD []) = none := by
  exact ⟨rfl, by rfl⟩

/-- The reference (state-A) dictionary accumulated from `c1md`. -/
def c1refD : StateDict :=
  [("N", mkStateAtom (altAtom 1 "N" "A") "A")]

theorem claim_C1_witness :
    backfillCond (accumStates c1md.flatten) = true ∧
    genStates c1md =
      (accumStates c1md.flatten).map
        (fun kv => (kv.1, backfillState c1refD kv.1 kv.2)) := by
  have h := claim_C1 c1md c1refD (by rfl) (by rfl)
  exact ⟨by rfl, h.1⟩

/-- The `c1md` records arranged as a parse-tree residue (serial 1 carries the
two alternate locations of N). -/
def c2wres : ResData :=
  { labels := [{ atType := "ATOM", resSeq := 1, resName := "ALA", iCode := "" }]
    atoms := [(1, [altAtom 1 "N" "A", altAtom 1 "N" "B"]),
              (2, [altAtom 2 "CA" "B"])] }

/-- The monomer lowered from `c2wres`. -/
def c2wm : Monomer :=
  (procMonomer c2wres none).toOption.getD
    { cls := .ligand, molCode := "", id := "", insertionCode := "",
      isHetero := false, states := [], activeState := "" }

theorem claim_C2_witness :
    procMonomer c2wres none = .ok c2wm ∧
    ∀ kv₁ ∈ c2wm.states, ∀ kv₂ ∈ c2wm.states, odKeys kv₁.2 = odKeys kv₂.2 :=
  ⟨by rfl, claim_C2 c2wres none c2wm c1refD (by rfl) (by rfl) (by rfl)⟩

theorem claim_C3_witness :
    loadPdb ["TITLE hello"] "1abc" false =
      .ok (.assembly { id := "1abc", molecules := [] }) ∧
    makeAmpal [] "1abc" = .error .emptyParseTree :=
  claim_C3 ["TITLE hello"] "1abc" false (by decide)

theorem claim_C5_witness :
    makeAmpal [(0, ([] : ModelData)), (1, [])] "x" = .ok (.container "x" []) ∧
    (∃ cid asms, AmpalResult.container "x" ([] : List Assembly) =
      .container cid asms) := by
  have h := claim_C5 [(0, ([] : ModelData)), (1, [])] "x" (.container "x" [])
    (by rfl)
  exact ⟨by rfl, h.1.mpr (by decide)⟩

/-- Two records sharing (state A, name CA), no other state: no backfill. -/
def c10wmd : List (List AtomData) :=
  [[altAtom 1 "CA" "", altAtom 2 "CA" ""]]

theorem claim_C10_witness :
    backfillCond (accumStates c10wmd.flatten) = false ∧
    odLookup "CA" ((odLookup "A" (genStates c10wmd)).getD []) =
      some (mkStateAtom (altAtom 2 "CA" "") "A") := by
  have h := claim_C10 c10wmd "A" "CA" (by rfl)
  refine ⟨by rfl, ?_⟩
  rw [h.2.1]
  rfl

/-! ## Record counting (claim C4) -/

/-- Number of `ATOM`/`HETATM` records stored for one residue. -/
def resRecordCount (r : ResData) : Nat :=
  (r.atoms.map (fun kv => kv.2.length)).sum

/-- Number of records stored in one model. -/
def modelRecordCount (model : ModelData) : Nat :=
  (model.map (fun kv => (kv.2.residues.map (fun rv => resRecordCount rv.2)).sum)).sum

/-- Number of records stored in the whole parse tree. -/
def dataRecordCount (data : ParseData) : Nat :=
  (data.map (fun kv => modelRecordCount kv.2)).sum

/-- Total number of atoms over all states of a monomer. -/
def statesTotalSize (sts : List (String × StateDict)) : Nat :=
  (sts.map (fun kv => kv.2.length)).sum

/-- The (state, atom-name) pairs of a record list. -/
def pairsOf (rs : List AtomData) : List (String × String) :=
  rs.map (fun a => (normState a, a.atName))

theorem mapSum_odInsert_not_mem {κ β : Type} [DecidableEq κ] (f : β → Nat)
    {k : κ} (v : β) (d : List (κ × β)) (h : k ∉ odKeys d) :
    ((odInsert k v d).map (fun kv => f kv.2)).sum =
      (d.map (fun kv => f kv.2)).sum + f v := by
  induction d with
  | nil => simp [odInsert]
  | cons h₀ t ih =>
    have hk : h₀.1 ≠ k := fun hc => h (by simp [odKeys, hc])
    have hmem : k ∉ odKeys t := fun hc => h (List.mem_cons_of_mem h₀.1 hc)
    simp only [odInsert, hk, if_false, List.map_cons, List.sum_cons, ih hmem]
    omega

theorem mapSum_odInsert_mem {κ β : Type} [DecidableEq κ] (f : β → Nat)
    {k : κ} {w : β} (v : β) :
    ∀ (d : List (κ × β)), (odKeys d).Nodup → odLookup k d = some w →
      ((odInsert k v d).map (fun kv => f kv.2)).sum + f w =
        (d.map (fun kv => f kv.2)).sum + f v := by
  intro d
  induction d with
  | nil => intro _ hlk; cases hlk
  | cons h₀ t ih =>
    intro hnd hlk
    have hnd2 : (h₀.1 :: odKeys t).Nodup := hnd
    have hnd' := List.nodup_cons.mp hnd2
    by_cases hk : h₀.1 = k
    · rw [odLookup, if_pos hk] at hlk
      injection hlk with hw
      simp only [odInsert, hk, if_true, List.map_cons, List.sum_cons, hw]
      omega
    · rw [odLookup, if_neg hk] at hlk
      have := ih hnd'.2 hlk
      simp only [odInsert, hk, if_false, List.map_cons, List.sum_cons]
      omega

theorem mem_odInsert {κ β : Type} [DecidableEq κ] {kv : κ × β} {k : κ} {v : β} :
    ∀ {d : List (κ × β)}, kv ∈ odInsert k v d → kv = (k, v) ∨ kv ∈ d := by
  intro d
  induction d with
  | nil => intro h; simpa [odInsert] using h
  | cons h₀ t ih =>
    intro h
    by_cases hk : h₀.1 = k
    · rw [odInsert, if_pos hk] at h
      rcases List.mem_cons.mp h with heq | hmem
      · exact .inl heq
      · exact .inr (List.mem_cons_of_mem _ hmem)
    · rw [odInsert, if_neg hk] at h
      rcases List.mem_cons.mp h with heq | hmem
      · exact .inr (heq ▸ List.mem_cons_self _ _)
      · rcases ih hmem with h₁ | h₁
        · exact .inl h₁
        · exact .inr (List.mem_cons_of_mem _ h₁)

/-- Duplicate-free atom-serial keys of a residue entry. -/
def resWF (r : ResData) : Prop :=
  (odKeys r.atoms).Nodup

/-- Duplicate-free residue keys, each residue well-formed. -/
def chainWF (c : ChainData) : Prop :=
  (odKeys c.residues).Nodup ∧ ∀ rv ∈ c.residues, resWF rv.2

/-- Duplicate-free chain keys, each chain well-formed. -/
def modelWF (model : ModelData) : Prop :=
  (odKeys model).Nodup ∧ ∀ kv ∈ model, chainWF kv.2

/-- The per-chain record count used in `modelRecordCount`. -/
def chainRecordCount (c : ChainData) : Nat :=
  (c.residues.map (fun rv => resRecordCount rv.2)).sum

/-- Inserting one record into a residue entry adds exactly one record. -/
theorem procAtomRes_count (a : AtomData) (res : ResData) (hwf : resWF res) :
    resRecordCount (procAtomRes a res) = resRecordCount res + 1 ∧
    resWF (procAtomRes a res) := by
  unfold procAtomRes
  cases hs : odLookup a.atSer res.atoms with
  | none =>
    constructor
    · simp [resRecordCount]
    · unfold resWF at hwf ⊢
      simp only [odKeys, List.map_append, List.map_cons, List.map_nil]
      refine List.Nodup.append (by simpa [odKeys] using hwf) (List.nodup_singleton _) ?_
      intro x hx hx₁
      have hx₂ : x = a.atSer := by simpa using hx₁
      have : a.atSer ∈ odKeys res.atoms := by
        rw [← hx₂]
        simpa [odKeys] using hx
      exact ((odLookup_eq_none_iff _ _).mp hs) this
  | some l =>
    constructor
    · have := mapSum_odInsert_mem (List.length) (l ++ [a]) res.atoms hwf hs
      simp only [resRecordCount]
      simp only [List.length_append, List.length_cons, List.length_nil] at this
      omega
    · exact odKeys_odInsert_nodup _ _ hwf

/-- An empty residue entry is well-formed with zero records. -/
theorem emptyRes_facts :
    resWF ({ labels := [], atoms := [] } : ResData) ∧
    resRecordCount ({ labels := [], atoms := [] } : ResData) = 0 := by
  constructor
  · simp [resWF, odKeys]
  · simp [resRecordCount]

/-- Inserting one record into a chain entry adds exactly one record. -/
theorem procAtomChain_count (a : AtomData) (chain : ChainData)
    (hwf : chainWF chain) :
    chainRecordCount (procAtomChain a chain) = chainRecordCount chain + 1 ∧
    chainWF (procAtomChain a chain) := by
  unfold procAtomChain chainRecordCount chainWF
  cases hr : odLookup (a.resSeq, a.iCode) chain.residues with
  | none =>
    simp only [hr, Option.getD_none]
    have hfresh : (a.resSeq, a.iCode) ∉ odKeys chain.residues :=
      (odLookup_eq_none_iff _ _).mp hr
    have hres := procAtomRes_count a { labels := [], atoms := [] }
      emptyRes_facts.1
    constructor
    · rw [mapSum_odInsert_not_mem resRecordCount _ _ hfresh]
      rw [hres.1, emptyRes_facts.2]
    · constructor
      · exact odKeys_odInsert_nodup _ _ hwf.1
      · intro rv hrv
        rcases mem_odInsert hrv with heq | hmem
        · rw [heq]
          exact hres.2
        · exact hwf.2 rv hmem
  | some res₀ =>
    simp only [hr, Option.getD_some]
    have hres := procAtomRes_count a res₀
      (hwf.2 _ (odLookup_some_mem hr))
    constructor
    · have h₂ :
          (List.map (fun rv => resRecordCount rv.2)
              (odInsert (a.resSeq, a.iCode) (procAtomRes a res₀)
                chain.residues)).sum + resRecordCount res₀ =
          (List.map (fun rv => resRecordCount rv.2) chain.residues).sum +
            resRecordCount (procAtomRes a res₀) :=
        mapSum_odInsert_mem resRecordCount
          (procAtomRes a res₀) chain.residues hwf.1 hr
      rw [hres.1] at h₂
      omega
    · constructor
      · exact odKeys_odInsert_nodup _ _ hwf.1
      · intro rv hrv
        rcases mem_odInsert hrv with heq | hmem
        · rw [heq]
          exact hres.2
        · exact hwf.2 rv hmem

/-- An empty chain entry is well-formed with zero records. -/
theorem emptyChain_facts :
    chainWF ({ labels := [], residues := [] } : ChainData) ∧
    chainRecordCount ({ labels := [], residues := [] } : ChainData) = 0 := by
  constructor
  · exact ⟨by simp [odKeys], by intro rv hrv; cases hrv⟩
  · simp [chainRecordCount]

/-- `proc_atom` adds exactly one record to the model and preserves
well-formedness. -/
theorem procAtom_count (a : AtomData) (model : ModelData) (hwf : modelWF model) :
    modelRecordCount (procAtom a model) = modelRecordCount model + 1 ∧
    modelWF (procAtom a model) := by
  unfold procAtom modelWF
  have hmodel : modelRecordCount model =
      (model.map (fun kv => chainRecordCount kv.2)).sum := rfl
  cases hc : odLookup a.chainId model with
  | none =>
    simp only [hc, Option.getD_none]
    have hfresh : a.chainId ∉ odKeys model := (odLookup_eq_none_iff _ _).mp hc
    have hchain := procAtomChain_count a { labels := [], residues := [] }
      emptyChain_facts.1
    constructor
    · show ((odInsert a.chainId _ model).map (fun kv => chainRecordCount kv.2)).sum = _
      rw [mapSum_odInsert_not_mem chainRecordCount _ _ hfresh]
      rw [hchain.1, emptyChain_facts.2, hmodel]
    · constructor
      · exact odKeys_odInsert_nodup _ _ hwf.1
      · intro kv hkv
        rcases mem_odInsert hkv with heq | hmem
        · rw [heq]
          exact hchain.2
        · exact hwf.2 kv hmem
  | some chain₀ =>
    simp only [hc, Option.getD_some]
    have hchain := procAtomChain_count a chain₀
      (hwf.2 _ (odLookup_some_mem hc))
    constructor
    · show ((odInsert a.chainId _ model).map (fun kv => chainRecordCount kv.2)).sum = _
      have h₂ :
          (List.map (fun kv => chainRecordCount kv.2)
              (odInsert a.chainId (procAtomChain a chain₀) model)).sum +
            chainRecordCount chain₀ =
          (List.map (fun kv => chainRecordCount kv.2) model).sum +
            chainRecordCount (procAtomChain a chain₀) :=
        mapSum_odInsert_mem chainRecordCount
          (procAtomChain a chain₀) model hwf.1 hc
      rw [hchain.1] at h₂
      rw [hmodel]
      omega
    · constructor
      · exact odKeys_odInsert_nodup _ _ hwf.1
      · intro kv hkv
        rcases mem_odInsert hkv with heq | hmem
        · rw [heq]
          exact hchain.2
        · exact hwf.2 kv hmem

/-- Well-formed parse tree: duplicate-free model keys, each model
well-formed. -/
def dataWF (data : ParseData) : Prop :=
  (odKeys data).Nodup ∧ ∀ kv ∈ data, modelWF kv.2

theorem rawAtomLineCount_cons_pos {l : String} (rest : List String)
    (h : recordName l = "ATOM" ∨ recordName l = "HETATM") :
    rawAtomLineCount (l :: rest) = rawAtomLineCount rest + 1 := by
  simp [rawAtomLineCount, List.filter_cons, h]

theorem rawAtomLineCount_cons_neg {l : String} (rest : List String)
    (h : ¬(recordName l = "ATOM" ∨ recordName l = "HETATM")) :
    rawAtomLineCount (l :: rest) = rawAtomLineCount rest := by
  push_neg at h
  simp [rawAtomLineCount, List.filter_cons, h.1, h.2]

/-- Every scanned `ATOM`/`HETATM` line adds exactly one record to the parse
tree; nothing else changes the record count (as long as no `END` record cuts
the scan short). -/
theorem scan_count (ie : Bool) :
    ∀ (lines : List String) (st : Nat) (data data₁ : ParseData),
      (∀ l ∈ lines, recordName l ≠ "END") →
      dataWF data → st ∈ odKeys data → (∀ k ∈ odKeys data, k ≤ st) →
      scanLines ie lines st data = .ok data₁ →
      dataRecordCount data₁ = dataRecordCount data + rawAtomLineCount lines := by
  intro lines
  induction lines with
  | nil =>
    intro st data data₁ _ _ _ _ h
    injection h with h₁
    rw [← h₁]
    simp [rawAtomLineCount]
  | cons l rest ih =>
    intro st data data₁ hEnd hwf hst hbound h
    have hEndl : recordName l ≠ "END" := hEnd l (List.mem_cons_self l rest)
    have hEndr : ∀ x ∈ rest, recordName x ≠ "END" :=
      fun x hx => hEnd x (List.mem_cons_of_mem l hx)
    unfold scanLines at h
    by_cases hatom : recordName l = "ATOM" ∨ recordName l = "HETATM"
    · rw [if_pos hatom] at h
      cases hpl : procLineCoordinate l with
      | none => rw [hpl] at h; cases h
      | some a =>
        rw [hpl] at h
        cases hlk : odLookup st data with
        | none => rw [hlk] at h; cases h
        | some model =>
          rw [hlk] at h
          have hmwf : modelWF model := hwf.2 _ (odLookup_some_mem hlk)
          have hpa := procAtom_count a model hmwf
          have hwf₁ : dataWF (odInsert st (procAtom a model) data) := by
            refine ⟨odKeys_odInsert_nodup _ _ hwf.1, ?_⟩
            intro kv hkv
            rcases mem_odInsert hkv with heq | hm
            · rw [heq]; exact hpa.2
            · exact hwf.2 kv hm
          have hst₁ : st ∈ odKeys (odInsert st (procAtom a model) data) := by
            rw [odKeys_odInsert_mem _ _ hst]; exact hst
          have hbound₁ : ∀ k ∈ odKeys (odInsert st (procAtom a model) data),
              k ≤ st := by
            rw [odKeys_odInsert_mem _ _ hst]; exact hbound
          have hrec := ih st _ data₁ hEndr hwf₁ hst₁ hbound₁ h
          have hcnt :
              (List.map (fun kv => modelRecordCount kv.2)
                (odInsert st (procAtom a model) data)).sum +
                modelRecordCount model =
              (List.map (fun kv => modelRecordCount kv.2) data).sum +
                modelRecordCount (procAtom a model) :=
            mapSum_odInsert_mem modelRecordCount (procAtom a model) data
              hwf.1 hlk
          rw [hpa.1] at hcnt
          have hcnt₂ :
              dataRecordCount (odInsert st (procAtom a model) data) +
                modelRecordCount model =
              dataRecordCount data + (modelRecordCount model + 1) := hcnt
          rw [rawAtomLineCount_cons_pos rest hatom]
          omega
    · rw [if_neg hatom] at h
      by_cases hmdl : recordName l = "ENDMDL"
      · rw [if_pos hmdl] at h
        have hfresh : (st + 1) ∉ odKeys data := by
          intro hc
          have := hbound _ hc
          omega
        have hwf₁ : dataWF (odInsert (st + 1) [] data) := by
          refine ⟨odKeys_odInsert_nodup _ _ hwf.1, ?_⟩
          intro kv hkv
          rcases mem_odInsert hkv with heq | hm
          · rw [heq]
            exact ⟨by simp [odKeys], by intro kv₁ hkv₁; cases hkv₁⟩
          · exact hwf.2 kv hm
        have hkeys₁ := odKeys_odInsert_not_mem ([] : ModelData) data hfresh
        have hst₁ : (st + 1) ∈ odKeys (odInsert (st + 1) [] data) := by
          rw [hkeys₁]; simp
        have hbound₁ : ∀ k ∈ odKeys (odInsert (st + 1) [] data),
            k ≤ st + 1 := by
          rw [hkeys₁]
          intro k hk
          rcases List.mem_append.mp hk with hk₁ | hk₁
          · have := hbound _ hk₁; omega
          · have : k = st + 1 := by simpa using hk₁
            omega
        have hrec := ih (st + 1) _ data₁ hEndr hwf₁ hst₁ hbound₁ h
        have hcnt :
            (List.map (fun kv => modelRecordCount kv.2)
              (odInsert (st + 1) ([] : ModelData) data)).sum =
            (List.map (fun kv => modelRecordCount kv.2) data).sum +
              modelRecordCount [] :=
          mapSum_odInsert_not_mem modelRecordCount ([] : ModelData) data hfresh
        have hcnt₂ :
            dataRecordCount (odInsert (st + 1) ([] : ModelData) data) =
              dataRecordCount data + 0 := hcnt
        rw [rawAtomLineCount_cons_neg rest hatom]
        omega
      · rw [if_neg hmdl, if_neg hEndl] at h
        have hrec := ih st data data₁ hEndr hwf hst hbound h
        rw [rawAtomLineCount_cons_neg rest hatom]
        exact hrec

/-- A label is accumulated in a state exactly when some record carries that
(state, name) pair. -/
theorem accum_key_iff (rs : List AtomData) (st k : String) :
    k ∈ odKeys (accumDict rs st) ↔ (st, k) ∈ pairsOf rs := by
  rw [← odLookup_isSome_iff, accum_lookup_lastMatch]
  rw [show (Option.map (fun a => mkStateAtom a st) (lastMatch st k rs)).isSome =
      (lastMatch st k rs).isSome from by cases lastMatch st k rs <;> rfl]
  unfold lastMatch
  rw [List.getLast?_isSome]
  constructor
  · intro hne
    rcases List.exists_mem_of_ne_nil _ hne with ⟨a, ha⟩
    have := List.mem_filter.mp ha
    have hp : normState a = st ∧ a.atName = k := by simpa using this.2
    exact List.mem_map.mpr ⟨a, this.1, by rw [hp.1, hp.2]⟩
  · intro hmem
    rcases List.mem_map.mp hmem with ⟨a, ha, hpa⟩
    intro hnil
    have := List.filter_eq_nil_iff.mp hnil a ha
    apply this
    simp only [decide_eq_true_eq]
    injection hpa with h₁ h₂
    exact ⟨h₁, h₂⟩

/-- With no two records sharing a (state, name) pair, the accumulated states
hold exactly one atom per record. -/
theorem accum_total (rs : List AtomData) (hdup : (pairsOf rs).Nodup) :
    statesTotalSize (accumStates rs) = rs.length := by
  induction rs using List.reverseRecOn with
  | nil => simp [statesTotalSize, accumStates]
  | append_singleton rs a ih =>
    have hpairs : pairsOf (rs ++ [a]) = pairsOf rs ++ [(normState a, a.atName)] := by
      simp [pairsOf]
    rw [hpairs] at hdup
    have hdup₁ : (pairsOf rs).Nodup := (List.nodup_append.mp hdup).1
    have hnotmem : (normState a, a.atName) ∉ pairsOf rs := by
      intro hc
      exact (List.nodup_append.mp hdup).2.2 hc (by simp)
    rw [accumStates_append]
    unfold accumStep
    unfold statesTotalSize at ih ⊢
    cases hlk : odLookup (normState a) (accumStates rs) with
    | none =>
      simp only [hlk, Option.getD_none]
      have hfresh : normState a ∉ odKeys (accumStates rs) :=
        (odLookup_eq_none_iff _ _).mp hlk
      have := mapSum_odInsert_not_mem (List.length)
        (odInsert a.atName (mkStateAtom a (normState a)) []) (accumStates rs)
        hfresh
      rw [this, ih hdup₁]
      simp [odInsert]
    | some d =>
      simp only [hlk, Option.getD_some]
      have hnk : a.atName ∉ odKeys d := by
        intro hc
        apply hnotmem
        rw [← accum_key_iff rs (normState a) a.atName]
        unfold accumDict
        rw [hlk]
        exact hc
      have hlen : (odInsert a.atName (mkStateAtom a (normState a)) d).length =
          d.length + 1 := odInsert_length_not_mem _ d hnk
      have hsum :
          (List.map (fun kv => kv.2.length)
            (odInsert (normState a)
              (odInsert a.atName (mkStateAtom a (normState a)) d)
              (accumStates rs))).sum + d.length =
          (List.map (fun kv => kv.2.length) (accumStates rs)).sum +
            (odInsert a.atName (mkStateAtom a (normState a)) d).length :=
        mapSum_odInsert_mem List.length _ (accumStates rs)
          (accum_keys_nodup rs) hlk
      rw [hlen] at hsum
      rw [ih hdup₁] at hsum
      have hsum₂ :
          (List.map (fun kv => kv.2.length)
            (odInsert (normState a)
              (odInsert a.atName (mkStateAtom a (normState a)) d)
              (accumStates rs))).sum + d.length =
          rs.length + (d.length + 1) := hsum
      simp only [List.length_append, List.length_cons, List.length_nil]
      have hfin :
          (List.map (fun kv => kv.2.length)
            (odInsert (normState a)
              (odInsert a.atName (mkStateAtom a (normState a)) d)
              (accumStates rs))).sum = rs.length + (0 + 1) := by omega
      exact hfin

theorem length_flatMap_general {α β : Type} (g : α → List β) (l : List α) :
    (l.flatMap g).length = (l.map (fun x => (g x).length)).sum := by
  induction l with
  | nil => rfl
  | cons h t ih => simp [List.flatMap_cons, ih]

theorem flattenSnd_length (l : List (Int × List AtomData)) :
    ((l.map Prod.snd).flatten).length = (l.map (fun kv => kv.2.length)).sum := by
  induction l with
  | nil => rfl
  | cons h t ih => simp [ih]

/-- A successfully lowered monomer contributes one serialized line per stored
record (alternate states included), provided no two records share a (state,
name) pair and the backfill does not fire. -/
theorem monomer_count {r : ResData} {hetCls : Option MonClass} {m : Monomer}
    (h : procMonomer r hetCls = .ok m)
    (hdup : (pairsOf ((r.atoms.map Prod.snd).flatten)).Nodup)
    (hnb : backfillCond (accumStates ((r.atoms.map Prod.snd).flatten)) = false) :
    (monomerAtomList m true false).length = resRecordCount r := by
  obtain ⟨hstates, hact⟩ := procMonomer_states h
  have hgen : genStates (r.atoms.map Prod.snd) =
      accumStates ((r.atoms.map Prod.snd).flatten) := by
    unfold genStates backfill
    rw [hnb]
    simp
  have htot : statesTotalSize m.states = resRecordCount r := by
    rw [hstates, hgen, accum_total _ hdup]
    unfold resRecordCount
    exact flattenSnd_length r.atoms
  unfold monomerAtomList
  by_cases hlen : m.states.length > 1
  · rw [if_pos ⟨hlen, rfl, by simp⟩]
    rw [length_flatMap_general]
    have hperm := ((sortByKey_perm pyStrLe m.states).map
      (fun kv => kv.2.length)).sum_eq
    rw [← htot]
    exact hperm
  · rw [if_neg (by intro hc; exact hlen hc.1)]
    cases hs : m.states with
    | nil =>
      rw [hs] at hact
      cases hact
    | cons kv t =>
      cases t with
      | cons kv₂ t₂ =>
        rw [hs] at hlen
        exact absurd (by simp) hlen
      | nil =>
        rw [hs] at hact
        have hact₁ : m.activeState = kv.1 := by
          unfold minString odKeys at hact
          simp at hact
          exact hact.symm
        rw [hact₁]
        have hlk : odLookup kv.1 [kv] = some kv.2 := by simp [odLookup]
        rw [hlk]
        rw [hs] at htot
        have htot₂ : kv.2.length = resRecordCount r := by
          rw [← htot]
          simp [statesTotalSize]
        simpa using htot₂

/-! ## Round-trip atom counting (claim C4) -/

/-- Serialized line count of a monomer list with alternate states written. -/
def msCount (ms : List Monomer) : Nat :=
  (ms.map (fun m => (monomerAtomList m true false).length)).sum

/-- Serialized line count of a lowered chain, associated ligands included. -/
def chainSerCount (c : Chain) : Nat :=
  msCount c.monomers + msCount (c.ligands.getD [])

/-- Serialized line count of a lowered model. -/
def asmSerCount (a : Assembly) : Nat :=
  (a.molecules.map chainSerCount).sum

/-- No two records of the residue share a (state, atom-name) pair, and all
alternate states end up the same size (the backfill loop never fires). -/
def resExact (r : ResData) : Prop :=
  (pairsOf ((r.atoms.map Prod.snd).flatten)).Nodup ∧
    backfillCond (accumStates ((r.atoms.map Prod.snd).flatten)) = false

instance (r : ResData) : Decidable (resExact r) := by
  unfold resExact; infer_instance

theorem msCount_append (a b : List Monomer) :
    msCount (a ++ b) = msCount a + msCount b := by
  simp [msCount]

/-- One routing step preserves the running serialized-line count plus the
residue's record count. -/
theorem procChainStep_count {polymer : Bool}
    {acc res : List Monomer × List Monomer}
    {entry : (Int × String) × ResData}
    (h : procChainStep polymer acc entry = .ok res)
    (hex : resExact entry.2) :
    msCount res.1 + msCount res.2 =
      msCount acc.1 + msCount acc.2 + resRecordCount entry.2 := by
  unfold procChainStep at h
  split at h
  · cases h
  · split at h
    · simp only [Bind.bind, Except.bind] at h
      cases hpm : procMonomer entry.2 none with
      | error e => rw [hpm] at h; cases h
      | ok m =>
        rw [hpm] at h
        cases h
        have hc := monomer_count hpm hex.1 hex.2
        simp only [msCount_append]
        simp only [msCount, List.map_cons, List.map_nil, List.sum_cons,
          List.sum_nil]
        omega
    · split at h
      · split at h
        case _ cls b hfilt =>
          simp only [Bind.bind, Except.bind] at h
          cases hpm : procMonomer entry.2 (some cls) with
          | error e => rw [hpm] at h; cases h
          | ok m =>
            rw [hpm] at h
            cases h
            have hc := monomer_count hpm hex.1 hex.2
            simp only [msCount_append]
            simp only [msCount, List.map_cons, List.map_nil, List.sum_cons,
              List.sum_nil]
            omega
        case _ hfilt =>
          simp only [Bind.bind, Except.bind] at h
          cases hpm : procMonomer entry.2 (some .ligand) with
          | error e => rw [hpm] at h; cases h
          | ok m =>
            rw [hpm] at h
            have hc := monomer_count hpm hex.1 hex.2
            cases hpol : polymer with
            | true =>
              rw [hpol] at h
              simp only [if_true] at h
              cases h
              simp only [msCount_append]
              simp only [msCount, List.map_cons, List.map_nil, List.sum_cons,
                List.sum_nil]
              omega
            | false =>
              rw [hpol] at h
              simp only [if_false] at h
              cases h
              simp only [msCount_append]
              simp only [msCount, List.map_cons, List.map_nil, List.sum_cons,
                List.sum_nil]
              omega
      · cases h

/-- The routing fold accumulates exactly the record counts of the residues
it consumes. -/
theorem procChain_fold_count (polymer : Bool) :
    ∀ (rs : List ((Int × String) × ResData))
      (acc res : List Monomer × List Monomer),
      rs.foldlM (procChainStep polymer) acc = .ok res →
      (∀ rv ∈ rs, resExact rv.2) →
      msCount res.1 + msCount res.2 =
        msCount acc.1 + msCount acc.2 +
          (rs.map (fun rv => resRecordCount rv.2)).sum := by
  intro rs
  induction rs with
  | nil =>
    intro acc res h _
    simp only [List.foldlM] at h
    cases h
    simp
  | cons entry t ih =>
    intro acc res h hex
    rw [foldlM_cons] at h
    cases hstep : procChainStep polymer acc entry with
    | error e => rw [hstep] at h; cases h
    | ok acc₁ =>
      rw [hstep] at h
      have h₁ := procChainStep_count hstep (hex entry (List.mem_cons_self _ _))
      have h₂ := ih acc₁ res h (fun rv hv => hex rv (List.mem_cons_of_mem _ hv))
      simp only [List.map_cons, List.sum_cons]
      omega

/-- In ligand-group mode the routing fold never feeds the second
accumulator. -/
theorem procChain_fold_false_snd :
    ∀ (rs : List ((Int × String) × ResData)) (l : List Monomer)
      (res : List Monomer × List Monomer),
      rs.foldlM (procChainStep false) (l, []) = .ok res → res.2 = [] := by
  intro rs
  induction rs with
  | nil =>
    intro l res h
    simp only [List.foldlM] at h
    cases h
    rfl
  | cons entry t ih =>
    intro l res h
    rw [foldlM_cons] at h
    cases hstep : procChainStep false (l, []) entry with
    | error e => rw [hstep] at h; cases h
    | ok acc₁ =>
      rw [hstep] at h
      rcases procChainStep_ok_shape hstep with ⟨m, hsh, _⟩ | ⟨m, hsh, _, hpf⟩ |
        ⟨m, hsh, _⟩
      · subst hsh
        exact ih (l ++ [m]) res h
      · cases hpf
      · subst hsh
        exact ih (l ++ [m]) res h

/-- A successfully lowered chain serializes (alternate states on, ligands
included) to exactly one line per stored record. -/
theorem procChain_count {cinfo : ChainData} {ch : Chain}
    (h : procChain cinfo = .ok ch)
    (hex : ∀ rv ∈ cinfo.residues, resExact rv.2) :
    chainSerCount ch = chainRecordCount cinfo := by
  have hnil : msCount [] = 0 := rfl
  unfold procChain at h
  cases hlab : cinfo.labels with
  | nil => rw [hlab] at h; cases h
  | cons c rest =>
    simp only [hlab] at h
    split at h
    · cases h
    · simp only [Bind.bind, Except.bind] at h
      split at h
      · cases hfold : cinfo.residues.foldlM (procChainStep true) ([], []) with
        | error e => rw [hfold] at h; cases h
        | ok ml =>
          rw [hfold] at h
          cases h
          have hcnt := procChain_fold_count true cinfo.residues ([], []) ml
            hfold hex
          simp only [chainSerCount, chainRecordCount, reduceIte,
            Option.getD_some] at hcnt ⊢
          rw [hnil] at hcnt
          omega
      · split at h
        · cases hfold : cinfo.residues.foldlM (procChainStep true) ([], []) with
          | error e => rw [hfold] at h; cases h
          | ok ml =>
            rw [hfold] at h
            cases h
            have hcnt := procChain_fold_count true cinfo.residues ([], []) ml
              hfold hex
            simp only [chainSerCount, chainRecordCount, reduceIte,
              Option.getD_some] at hcnt ⊢
            rw [hnil] at hcnt
            omega
        · split at h
          · cases hfold : cinfo.residues.foldlM (procChainStep false) ([], []) with
            | error e => rw [hfold] at h; cases h
            | ok ml =>
              rw [hfold] at h
              cases h
              have hcnt := procChain_fold_count false cinfo.residues ([], []) ml
                hfold hex
              have hsnd := procChain_fold_false_snd cinfo.residues [] ml hfold
              rw [hsnd] at hcnt
              show msCount ml.1 + msCount [] = chainRecordCount cinfo
              rw [hnil] at hcnt ⊢
              unfold chainRecordCount
              omega
          · cases h

theorem writePdb_length (ct : String → String) (ms : List Monomer)
    (cid : String) :
    (writePdb ct ms cid true false).length = msCount ms := by
  simp only [writePdb, msCount]
  rw [length_flatMap_general]
  simp [List.length_map]

/-- Re-labelling changes no monomer's states, so the serialized count is
unchanged. -/
theorem msCount_relabel (ms : List Monomer) :
    msCount (relabelMonomers ms) = msCount ms := by
  unfold msCount relabelMonomers
  rw [List.map_map]
  have h₁ : ((fun m => (monomerAtomList m true false).length) ∘
      (fun im : Nat × Monomer => { im.2 with id := toString (im.1 + 1) })) =
      ((fun m => (monomerAtomList m true false).length) ∘ Prod.snd) := by
    funext im
    rfl
  rw [h₁, ← List.map_map, List.enum_map_snd]

/-- `Polymer.make_pdb` with alternate states and ligands on writes one line
per monomer-list entry of the chain and its associated ligand group. -/
theorem polymerMakePdb_count (ct : String → String) (c : Chain) :
    (polymerMakePdb ct c true true).length = chainSerCount c := by
  have hOwn : msCount (if c.monomers.any (fun m => m.id = "")
      then relabelMonomers c.monomers else c.monomers) = msCount c.monomers := by
    split
    · exact msCount_relabel c.monomers
    · rfl
  cases hlig : c.ligands with
  | none =>
    have hEq : polymerMakePdb ct c true true =
        writePdb ct (if c.monomers.any (fun m => m.id = "")
          then relabelMonomers c.monomers else c.monomers) c.id true false := by
      simp only [polymerMakePdb, hlig]
    rw [hEq, writePdb_length, hOwn]
    simp [chainSerCount, hlig, msCount]
  | some ligs =>
    by_cases hne : ligs = []
    · subst hne
      have hEq : polymerMakePdb ct c true true =
          writePdb ct (if c.monomers.any (fun m => m.id = "")
            then relabelMonomers c.monomers else c.monomers) c.id true false := by
        simp only [polymerMakePdb, hlig]
        simp
      rw [hEq, writePdb_length, hOwn]
      simp [chainSerCount, hlig, msCount]
    · have hEq : polymerMakePdb ct c true true =
          writePdb ct ((if c.monomers.any (fun m => m.id = "")
            then relabelMonomers c.monomers else c.monomers) ++ ligs)
            c.id true false := by
        simp only [polymerMakePdb, hlig]
        rw [if_pos ⟨hne, trivial⟩]
      rw [hEq, writePdb_length, msCount_append, hOwn]
      simp [chainSerCount, hlig]

/-- The chain-lowering fold of `proc_state` accumulates the chains' record
counts as serialized counts. -/
theorem procState_fold_count :
    ∀ (cs : List (String × ChainData)) (acc res : List Chain),
      cs.foldlM procStateStep acc = .ok res →
      (∀ ckv ∈ cs, ∀ rv ∈ ckv.2.residues, resExact rv.2) →
      (res.map chainSerCount).sum =
        (acc.map chainSerCount).sum +
          (cs.map (fun kv => chainRecordCount kv.2)).sum := by
  intro cs
  induction cs with
  | nil =>
    intro acc res h _
    simp only [List.foldlM] at h
    cases h
    simp
  | cons kv t ih =>
    intro acc res h hex
    rw [foldlM_cons] at h
    cases hstep : procStateStep acc kv with
    | error e => rw [hstep] at h; cases h
    | ok acc₁ =>
      rw [hstep] at h
      unfold procStateStep at hstep
      simp only [Bind.bind, Except.bind] at hstep
      cases hpc : procChain kv.2 with
      | error e => rw [hpc] at hstep; cases hstep
      | ok ch =>
        rw [hpc] at hstep
        cases hstep
        have hchain := procChain_count hpc (hex kv (List.mem_cons_self _ _))
        have hrec := ih (acc ++ [ch]) res h
          (fun ckv hv => hex ckv (List.mem_cons_of_mem _ hv))
        simp only [List.map_append, List.sum_append, List.map_cons,
          List.map_nil, List.sum_cons, List.sum_nil] at hrec
        simp only [List.map_cons, List.sum_cons]
        omega

/-- A successfully lowered model serializes (alternate states on, ligands
included) to one line per stored record. -/
theorem procState_count {model : ModelData} {sid : String} {asm : Assembly}
    (h : procState model sid = .ok asm)
    (hex : ∀ ckv ∈ model, ∀ rv ∈ ckv.2.residues, resExact rv.2) :
    asmSerCount asm = modelRecordCount model := by
  unfold procState at h
  simp only [Bind.bind, Except.bind] at h
  cases hfold : (sortByKey pyStrLe model).foldlM procStateStep [] with
  | error e => rw [hfold] at h; cases h
  | ok chains =>
    rw [hfold] at h
    cases h
    have hex₂ : ∀ ckv ∈ sortByKey pyStrLe model, ∀ rv ∈ ckv.2.residues,
        resExact rv.2 := by
      intro ckv hv
      exact hex ckv ((sortByKey_perm pyStrLe model).mem_iff.mp hv)
    have hcnt := procState_fold_count (sortByKey pyStrLe model) [] chains
      hfold hex₂
    have hperm := ((sortByKey_perm pyStrLe model).map
      (fun kv => chainRecordCount kv.2)).sum_eq
    have hmodel : modelRecordCount model =
        (model.map (fun kv => chainRecordCount kv.2)).sum := rfl
    simp only [List.map_nil, List.sum_nil] at hcnt
    show (chains.map chainSerCount).sum = modelRecordCount model
    omega

/-- No parsed chain carries the `pseudo_group` molecule type. -/
theorem molTypeString_ne_pseudo (p : PolyClass) :
    molTypeString p ≠ "pseudo_group" := by
  cases p <;> decide

/-- Every parsed chain survives the default `pseudo_group` restriction. -/
theorem filter_molecules (cs : List Chain) :
    cs.filter (fun c => molTypeString c.cls ∉ (["pseudo_group"] : List String)) =
      cs := by
  induction cs with
  | nil => rfl
  | cons c t ih =>
    simp [List.filter_cons, molTypeString_ne_pseudo, ih]

/-- `ATOM`/`HETATM` lines of the concatenated per-chain blocks. -/
theorem atomCount_blocks (ct : String → String) :
    ∀ cs : List Chain,
      (List.filter isAtomLine
        (cs.flatMap (fun c =>
          (polymerMakePdb ct c true true).map PdbLine.atomLine ++
            [PdbLine.ter]))).length =
      (cs.map (fun c => (polymerMakePdb ct c true true).length)).sum := by
  intro cs
  induction cs with
  | nil => rfl
  | cons c t ih =>
    rw [List.flatMap_cons, List.filter_append, List.filter_append]
    have h₁ : List.filter isAtomLine
        ((polymerMakePdb ct c true true).map PdbLine.atomLine) =
        (polymerMakePdb ct c true true).map PdbLine.atomLine := by
      apply List.filter_eq_self.mpr
      intro x hx
      rcases List.mem_map.mp hx with ⟨r, _, hr⟩
      rw [← hr]
      rfl
    rw [h₁]
    simp only [List.length_append, List.length_map, List.map_cons,
      List.sum_cons]
    rw [show (List.filter isAtomLine [PdbLine.ter]).length = 0 from rfl]
    omega

/-- With ligands included, `Assembly.make_pdb` filters nothing and its
`ATOM`/`HETATM` line count is the sum of the per-chain block lengths. -/
theorem assemblyMakePdb_count (ct : String → String) (a : Assembly)
    (hd ft : Bool) :
    atomLineCount (assemblyMakePdb ct a true true false hd ft) =
      (a.molecules.map (fun c => (polymerMakePdb ct c true true).length)).sum := by
  simp only [assemblyMakePdb, atomLineCount, reduceIte, Bool.false_eq_true,
    if_false, List.nil_append]
  rw [filter_molecules]
  rw [List.filter_append, List.filter_append]
  have hhd : (List.filter isAtomLine
      (if hd = true then [PdbLine.headerLine] else [])).length = 0 := by
    cases hd <;> rfl
  have hft : (List.filter isAtomLine
      (if ft = true then [PdbLine.endLine] else [])).length = 0 := by
    cases ft <;> rfl
  simp only [List.length_append, hhd, hft]
  rw [Nat.zero_add, Nat.add_zero]
  exact atomCount_blocks ct a.molecules

/-- Claim C4 (corrected): the round-trip atom-count identity does not hold
for every valid input under the default serialization: a residue with genuine
alternate conformations serializes only its active state when
`alt_states=False` (the default), and the parser itself can change the count
(two records of one residue sharing an (alt-loc, atom-name) pair overwrite
each other, and the `gen_states` backfill copies reference atoms into smaller
states).  Amended: if no input line is an `END` record, parsing succeeds and
lowers to a bare `Assembly`, and every residue is exact — no two of its
records share an (alternate-location, atom-name) pair and the backfill never
fires — then serializing with alternate states and ligands included writes
exactly one `ATOM`/`HETATM` line per raw `ATOM`/`HETATM` input line. -/
theorem claim_C4 (lines : List String) (pdbId : String) (ie : Bool)
    (data : ParseData) (asm : Assembly) (ct : String → String) (hd ft : Bool)
    (hend : ∀ l ∈ lines, recordName l ≠ "END")
    (hp : parsePdbLines ie lines = .ok data)
    (hm : makeAmpal data pdbId = .ok (.assembly asm))
    (hex : ∀ mkv ∈ data, ∀ ckv ∈ mkv.2, ∀ rv ∈ ckv.2.residues, resExact rv.2) :
    atomLineCount (assemblyMakePdb ct asm true true false hd ft) =
      rawAtomLineCount lines := by
  have hwf0 : dataWF [(0, ([] : ModelData))] := by
    refine ⟨by simp [odKeys], ?_⟩
    intro kv hkv
    rw [List.mem_singleton.mp hkv]
    exact ⟨by simp [odKeys], by intro c hc; cases hc⟩
  have hscan := scan_count ie lines 0 [(0, [])] data hend hwf0
    (by simp [odKeys]) (by simp [odKeys]) hp
  have h0 : dataRecordCount [(0, ([] : ModelData))] = 0 := rfl
  unfold makeAmpal at hm
  split at hm
  case isTrue h1 =>
    exfalso
    simp only [Bind.bind, Except.bind] at hm
    cases hf : (sortByKey natLeB data).foldlM (makeAmpalStep pdbId) [] with
    | error e => rw [hf] at hm; cases hm
    | ok asms =>
      rw [hf] at hm
      injection hm with hres
      cases hres
  case isFalse h1 =>
    split at hm
    case isTrue h2 =>
      cases hlk : odLookup 0 data with
      | none => rw [hlk] at hm; cases hm
      | some model =>
        rw [hlk] at hm
        simp only [Bind.bind, Except.bind] at hm
        cases hps : procState model pdbId with
        | error e => rw [hps] at hm; cases hm
        | ok a₀ =>
          rw [hps] at hm
          injection hm with hres
          injection hres with ha
          subst ha
          cases data with
          | nil => simp at h2
          | cons kv rest =>
            cases rest with
            | cons kv₂ r₂ => simp at h2
            | nil =>
              unfold odLookup at hlk
              by_cases hk0 : kv.1 = 0
              · rw [if_pos hk0] at hlk
                injection hlk with hv
                subst hv
                have hex₂ : ∀ ckv ∈ kv.2, ∀ rv ∈ ckv.2.residues,
                    resExact rv.2 :=
                  hex kv (List.mem_singleton.mpr rfl)
                have hms := procState_count hps hex₂
                rw [assemblyMakePdb_count]
                simp only [polymerMakePdb_count]
                show asmSerCount a₀ = rawAtomLineCount lines
                have hdata : dataRecordCount [kv] = modelRecordCount kv.2 + 0 :=
                  rfl
                omega
              · rw [if_neg hk0] at hlk
                cases hlk
    case isFalse h2 => cases hm

/-- Single-record fixture line for the C4 witness. -/
def c4wlines : List String :=
  [mkAtomLine "ATOM" 1 "N" "" "ALA" "A" 1 "" "11.104" "6.134" "1.711"
    "1.00" "0.00" "N" ""]

/-- Parse tree of the C4 witness input. -/
def c4wdata : ParseData := (parsePdbLines false c4wlines).toOption.getD [(0, [])]

/-- Lowered assembly of the C4 witness input. -/
def c4wasm : Assembly :=
  match makeAmpal c4wdata "1xyz" with
  | .ok (.assembly a) => a
  | _ => { id := "", molecules := [] }

/-- Claim C4 witness: one `ATOM` line in, one `ATOM` line out. -/
theorem claim_C4_witness :
    (∀ l ∈ c4wlines, recordName l ≠ "END") ∧
    parsePdbLines false c4wlines = .ok c4wdata ∧
    makeAmpal c4wdata "1xyz" = .ok (.assembly c4wasm) ∧
    atomLineCount
        (assemblyMakePdb (fun s => s) c4wasm true true false true true) =
      rawAtomLineCount c4wlines :=
  ⟨by decide, by rfl, by rfl,
    claim_C4 c4wlines "1xyz" false c4wdata c4wasm (fun s => s) true true
      (by decide) (by rfl) (by rfl) (by decide)⟩

/-- Serialized `ATOM`/`HETATM` line count of the default serialization
(`ligands=True, alt_states=False, pseudo_group=False`, header and footer on)
of a parse-and-lower result. -/
def defaultSerCount (res : Except PdbError AmpalResult) : Nat :=
  match res with
  | .ok (.assembly a) =>
      atomLineCount (assemblyMakePdb (fun s => s) a true false false true true)
  | _ => 0

/-- A valid two-line file: one residue, one atom in two alternate
conformations `A` and `B`. -/
def c4clines : List String :=
  [mkAtomLine "ATOM" 1 "CA" "A" "ALA" "A" 1 "" "1.0" "2.0" "3.0"
    "0.50" "0.00" "C" "",
   mkAtomLine "ATOM" 2 "CA" "B" "ALA" "A" 1 "" "1.1" "2.1" "3.1"
    "0.50" "0.00" "C" ""]

/-- Claim C4 counterexample: under the default serialization the alternate
conformation is dropped — two raw `ATOM` lines parse and serialize to a
single `ATOM` line. -/
theorem claim_C4_counterexample :
    rawAtomLineCount c4clines = 2 ∧
    defaultSerCount (loadPdb c4clines "1xyz" false) = 1 := ⟨rfl, rfl⟩

end Ampal
